import Mathlib

/-!
Verification of an open-addressing hash map with linear probing,
backward-shift deletion and an insertion-ordered linked list of entries
(`src/hash_map.h`).

The slot array (`storage` in the source) is modelled as an array of
optional keys: `some k` in slot `i` stands for the pointer stored in
`storage[i]` to the `Item` whose key is `k` (items are uniquely
identified by their key, which holds in every reachable state).  The
doubly-linked list of items is modelled as the list `chain` of entries
in list order (`_begin` to `_end` exclusive); each entry carries the
`pos` field of the corresponding `Item`.  The unbounded probing loops
of the source are given `capacity` rounds of fuel and return `none`
when the fuel runs out, which corresponds to the C++ loop not
terminating; the theorems show this never happens in reachable states.
-/

namespace HashMapVerif

/-- An element of the hash map: the key/value pair together with the
`pos` field recording the slot-array index currently holding it.  This
is `HashMap::Item` from the source, with the intrusive `prev`/`next`
pointers represented by the entry's position in the `chain` list. -/
structure Entry (K V : Type) where
  key : K
  value : V
  pos : Nat
deriving DecidableEq

/-- The hash map state (`HashMap` in the source): the hasher, the
capacity, the `size_` counter, the open-addressing slot array
(`storage`; `none` is a null pointer, `some k` a pointer to the item
with key `k`) and the linked list of items in insertion order. -/
structure HM (K V : Type) where
  hasher : K → Nat
  capacity : Nat
  size_ : Nat
  storage : Array (Option K)
  chain : List (Entry K V)

variable {K V : Type}

/-- Reading slot `i` of the slot array. -/
def slotAt (st : Array (Option K)) (i : Nat) : Option K := st.getD i none

/-- Model of `HashMap::cyclic_inc`: increase `i` by `1` modulo the capacity. -/
def cyclic_inc (cap i : Nat) : Nat := if i + 1 = cap then 0 else i + 1

/-- Model of `HashMap::is_in_range`: whether `i` lies between `a` and `b` in the
cyclic array (the source's `from` and `to` arguments). -/
def is_in_range (i a b : Nat) : Bool :=
  if a ≤ b then decide (a ≤ i) && decide (i ≤ b)
  else decide (i ≤ b) || decide (a ≤ i)

/-- Cyclic distance from `a` forward to `b` in an array of size `cap`
(a proof-side notion used to reason about the cyclic scans). -/
def dist (cap a b : Nat) : Nat := if a ≤ b then b - a else b + cap - a

/-- Generic cyclic scan: starting at slot `i`, return the first slot
satisfying `P`, advancing with `cyclic_inc` and giving up (returning
`none`) when the fuel runs out.  Both probing loops of the source
(`find_pos` and `find_next`) are scans of this shape. -/
def scanFirst (cap : Nat) (P : Nat → Bool) : Nat → Nat → Option Nat
  | 0, _ => none
  | fuel + 1, i => if P i then some i else scanFirst cap P fuel (cyclic_inc cap i)

/-- Model of `HashMap::get_hash`: the hash of a key modulo the capacity (its home
position). -/
def homeOf (hasher : K → Nat) (cap : Nat) (k : K) : Nat := hasher k % cap

/-- Model of `HashMap::find_pos` on explicit components: scan cyclically from the
home position of `key`, stopping at the first slot that is null or holds
an item with an equal key. -/
def find_pos_st [DecidableEq K] (hasher : K → Nat) (cap : Nat) (st : Array (Option K))
    (key : K) : Option Nat :=
  scanFirst cap
    (fun i =>
      match slotAt st i with
      | none => true
      | some k' => decide (k' = key))
    cap (homeOf hasher cap key)

/-- Model of `HashMap::find_pos`. -/
def find_pos [DecidableEq K] (m : HM K V) (key : K) : Option Nat :=
  find_pos_st m.hasher m.capacity m.storage key

/-- Model of `HashMap::find_next`: scan cyclically from `pos + 1`, stopping at the
first slot that is null or holds an item whose home position does not lie
in the cyclic range `[pos + 1, i]`. -/
def find_next (hasher : K → Nat) (cap : Nat) (st : Array (Option K)) (pos : Nat) :
    Option Nat :=
  scanFirst cap
    (fun i =>
      match slotAt st i with
      | none => true
      | some k' => ! is_in_range (homeOf hasher cap k') (cyclic_inc cap pos) i)
    cap (cyclic_inc cap pos)

/-- Model of `HashMap::insert_item` (used by `resize`): re-place one item of the
chain into the slot array being rebuilt, updating the item's `pos` field
and the size counter. -/
def insert_item [DecidableEq K] (hasher : K → Nat) (cap : Nat) (st : Array (Option K))
    (sz : Nat) (e : Entry K V) : Option (Array (Option K) × Entry K V × Nat) :=
  match find_pos_st hasher cap st e.key with
  | none => none
  | some pos =>
    match slotAt st pos with
    | some _ => some (st, e, sz)
    | none => some (st.setD pos (some e.key), { e with pos := pos }, sz + 1)

/-- The loop of `HashMap::resize`: run `insert_item` over the chain,
rebuilding the slot array and the chain (whose items get new `pos`
fields) and recounting the size. -/
def resizeFold [DecidableEq K] (hasher : K → Nat) (cap : Nat) :
    List (Entry K V) → Array (Option K) → List (Entry K V) → Nat →
    Option (Array (Option K) × List (Entry K V) × Nat)
  | [], st, acc, sz => some (st, acc, sz)
  | e :: es, st, acc, sz =>
    match insert_item hasher cap st sz e with
    | none => none
    | some (st', e', sz') => resizeFold hasher cap es st' (acc ++ [e']) sz'

/-- Model of `HashMap::resize`: reallocate the slot array at the new capacity and
re-insert every item of the chain, in chain order. -/
def resize [DecidableEq K] (m : HM K V) (newCapacity : Nat) : Option (HM K V) :=
  match resizeFold m.hasher newCapacity m.chain (Array.mkArray newCapacity none) [] 0 with
  | none => none
  | some (st, ch, sz) =>
    some { m with capacity := newCapacity, size_ := sz, storage := st, chain := ch }

/-- Model of `HashMap::resize_if_need`: double the capacity when the load factor
reaches 3/4. -/
def resize_if_need [DecidableEq K] (m : HM K V) : Option (HM K V) :=
  if m.size_ * 4 ≥ m.capacity * 3 then resize m (m.capacity * 2) else some m

/-- Model of `HashMap::insert`: probe for the key; if the found slot is occupied
the call is a no-op, otherwise a new item is created at the tail of the
chain (`create_item`), placed in the slot, and the growth trigger is
evaluated. -/
def insert [DecidableEq K] (m : HM K V) (kv : K × V) : Option (HM K V) :=
  match find_pos m kv.1 with
  | none => none
  | some pos =>
    match slotAt m.storage pos with
    | some _ => some m
    | none =>
      resize_if_need
        { m with storage := m.storage.setD pos (some kv.1),
                 chain := m.chain ++ [⟨kv.1, kv.2, pos⟩],
                 size_ := m.size_ + 1 }

/-- The backward-shift compaction loop of `HashMap::erase`: while
`find_next` returns an occupied slot, move its item back to the hole
(updating the item's `pos` field in the chain) and continue from the new
hole. -/
def eraseLoop [DecidableEq K] (hasher : K → Nat) (cap : Nat) :
    Nat → Array (Option K) → List (Entry K V) → Nat →
    Option (Array (Option K) × List (Entry K V))
  | 0, _, _, _ => none
  | fuel + 1, st, ch, pos =>
    match find_next hasher cap st pos with
    | none => none
    | some nextPos =>
      match slotAt st nextPos with
      | none => some (st, ch)
      | some k' =>
        eraseLoop hasher cap fuel ((st.setD pos (some k')).setD nextPos none)
          (ch.map fun e => if e.key = k' then { e with pos := pos } else e) nextPos

/-- Model of `HashMap::erase`: probe for the key; if the found slot is null the
call is a no-op, otherwise the item is deleted from the chain and the
slot array, the hole is repaired by backward-shift compaction, and the
growth trigger is evaluated. -/
def erase [DecidableEq K] (m : HM K V) (k : K) : Option (HM K V) :=
  match find_pos m k with
  | none => none
  | some pos =>
    match slotAt m.storage pos with
    | none => some m
    | some _ =>
      match eraseLoop m.hasher m.capacity m.capacity (m.storage.setD pos none)
          (m.chain.eraseP fun e => decide (e.key = k)) pos with
      | none => none
      | some (st, ch) =>
        resize_if_need { m with storage := st, chain := ch, size_ := m.size_ - 1 }

/-- The value of the item with key `k` (dereferencing an item pointer in
the source reads `keyValue.second` of the unique item with that key). -/
def valueOfKey [DecidableEq K] (m : HM K V) (k : K) : Option V :=
  (m.chain.find? fun e => decide (e.key = k)).map Entry.value

/-- Model of `HashMap::at`: `Except.error ()` is the thrown `std::out_of_range`,
`Except.ok v` a normal return of the stored value. -/
def hm_at [DecidableEq K] [Inhabited V] (m : HM K V) (k : K) : Option (Except Unit V) :=
  (find_pos m k).map fun pos =>
    match slotAt m.storage pos with
    | none => Except.error ()
    | some k' => Except.ok ((valueOfKey m k').getD default)

/-- Model of `HashMap::find`: `some none` is the `end()` iterator, `some (some k')`
an iterator to the item with key `k'`. -/
def find [DecidableEq K] (m : HM K V) (k : K) : Option (Option K) :=
  (find_pos m k).map fun pos => slotAt m.storage pos

/-- Model of `HashMap::operator[]`: if the key is present return its value,
otherwise insert a default-constructed value, evaluate the growth
trigger, re-probe, and return the stored value.  The result pairs the new
state with the value the returned reference points to. -/
def opIndex [DecidableEq K] [Inhabited V] (m : HM K V) (k : K) : Option (HM K V × V) :=
  match find_pos m k with
  | none => none
  | some pos =>
    match slotAt m.storage pos with
    | some k' => some (m, (valueOfKey m k').getD default)
    | none =>
      match resize_if_need
          { m with storage := m.storage.setD pos (some k),
                   chain := m.chain ++ [⟨k, default, pos⟩],
                   size_ := m.size_ + 1 } with
      | none => none
      | some m2 =>
        match find_pos m2 k with
        | none => none
        | some pos2 =>
          match slotAt m2.storage pos2 with
          | none => none
          | some k'' => some (m2, (valueOfKey m2 k'').getD default)

/-- Model of `HashMap::clear`: walk the chain nulling each item's slot, delete all
items, and reset the size (the capacity is kept). -/
def clear (m : HM K V) : HM K V :=
  { m with storage := m.chain.foldl (fun st e => st.setD e.pos none) m.storage,
           chain := [], size_ := 0 }

/-- Model of `HashMap::delete_all`: delete every item and reset to an empty table
of capacity 1 (used by the assignment operator and the destructor). -/
def delete_all (m : HM K V) : HM K V :=
  { m with capacity := 1, size_ := 0, storage := Array.mkArray 1 none, chain := [] }

/-- Model of `HashMap::init`: the empty table of capacity 1 built by every
constructor. -/
def init (hasher : K → Nat) : HM K V :=
  { hasher := hasher, capacity := 1, size_ := 0, storage := Array.mkArray 1 none,
    chain := [] }

/-- Model of `HashMap::hash_function`. -/
def hash_function (m : HM K V) : K → Nat := m.hasher

/-- Model of `HashMap::size`. -/
def size (m : HM K V) : Nat := m.size_

/-- Insert a list of pairs in order (the loop shared by the range/list
constructors, the copy constructor and the assignment operator). -/
def insertList [DecidableEq K] (m : HM K V) : List (K × V) → Option (HM K V)
  | [] => some m
  | kv :: rest =>
    match insert m kv with
    | none => none
    | some m' => insertList m' rest

/-- Model of `HashMap::operator=`: `same` models the address check
`&other != this`; on self-assignment nothing happens, otherwise the
destination is emptied by `delete_all` and every entry of the source is
inserted in source iteration order. -/
def assign [DecidableEq K] (dst src : HM K V) (same : Bool) : Option (HM K V) :=
  if same then some dst
  else insertList (delete_all dst) (src.chain.map fun e => (e.key, e.value))

/-- The copy constructor `HashMap(const HashMap&, const Hash& = Hash())`:
a fresh table with the separately supplied hasher, filled by inserting
the source's entries in source iteration order. -/
def copyCtor [DecidableEq K] (src : HM K V) (hasher : K → Nat) : Option (HM K V) :=
  insertList (init hasher) (src.chain.map fun e => (e.key, e.value))

/-- One public mutating operation. -/
inductive Op (K V : Type) where
  | ins (kv : K × V)
  | ers (k : K)
  | idx (k : K)
  | clr

/-- Run one public operation. -/
def step [DecidableEq K] [Inhabited V] (m : HM K V) : Op K V → Option (HM K V)
  | .ins kv => insert m kv
  | .ers k => erase m k
  | .idx k => (opIndex m k).map Prod.fst
  | .clr => some (clear m)

/-- Run a sequence of public operations. -/
def run [DecidableEq K] [Inhabited V] (m : HM K V) : List (Op K V) → Option (HM K V)
  | [] => some m
  | op :: ops =>
    match step m op with
    | none => none
    | some m' => run m' ops

/-- The contents of the table in iteration order (`begin()` to `end()`),
as key/value pairs. -/
def absMap (m : HM K V) : List (K × V) := m.chain.map fun e => (e.key, e.value)

/-- Specification-side model: lookup in an insertion-ordered association
list (the value of the first, hence only, occurrence of the key). -/
def refLookup [DecidableEq K] (σ : List (K × V)) (k : K) : Option V :=
  (σ.find? fun p => decide (p.1 = k)).map Prod.snd

/-- Specification-side model of `insert` ("if the key is already present,
the call is a no-op"; otherwise the pair is appended at the tail). -/
def refInsert [DecidableEq K] (σ : List (K × V)) (kv : K × V) : List (K × V) :=
  if (refLookup σ kv.1).isSome then σ else σ ++ [kv]

/-- Specification-side model of `erase` (drop the key, keeping order). -/
def refErase [DecidableEq K] (σ : List (K × V)) (k : K) : List (K × V) :=
  σ.filter fun p => decide (¬ p.1 = k)

/-- Specification-side model of `operator[]` (append a default value when
the key is absent). -/
def refIndex [DecidableEq K] [Inhabited V] (σ : List (K × V)) (k : K) : List (K × V) :=
  if (refLookup σ k).isSome then σ else σ ++ [(k, default)]

/-- Specification-side model of one public operation. -/
def refStep [DecidableEq K] [Inhabited V] (σ : List (K × V)) : Op K V → List (K × V)
  | .ins kv => refInsert σ kv
  | .ers k => refErase σ k
  | .idx k => refIndex σ k
  | .clr => []

/-- Specification-side model of a sequence of public operations. -/
def refRun [DecidableEq K] [Inhabited V] (σ : List (K × V)) :
    List (Op K V) → List (K × V)
  | [] => σ
  | op :: ops => refRun (refStep σ op) ops

/-- Specification-side model of inserting a list of pairs in order. -/
def refInsertList [DecidableEq K] (σ : List (K × V)) : List (K × V) → List (K × V)
  | [] => σ
  | kv :: ps => refInsertList (refInsert σ kv) ps

/-- The open-addressing contiguity-of-probe invariant: for every occupied
slot `i`, every slot on the cyclic scan from the home position of its key
up to `i` is occupied. -/
def Contig (hasher : K → Nat) (cap : Nat) (st : Array (Option K)) : Prop :=
  ∀ i k, i < cap → slotAt st i = some k →
    ∀ j, j < cap → dist cap (homeOf hasher cap k) j ≤ dist cap (homeOf hasher cap k) i →
      (slotAt st j).isSome

/-- The contiguity invariant with a hole at `p` (the state maintained by
the backward-shift compaction loop of `erase`). -/
def ContigExcept (hasher : K → Nat) (cap : Nat) (st : Array (Option K)) (p : Nat) : Prop :=
  ∀ i k, i < cap → slotAt st i = some k →
    ∀ j, j < cap → dist cap (homeOf hasher cap k) j ≤ dist cap (homeOf hasher cap k) i →
      j ≠ p → (slotAt st j).isSome

/-- Each key occupies at most one slot. -/
def SlotsNodup (cap : Nat) (st : Array (Option K)) : Prop :=
  ∀ i j k, i < cap → j < cap → slotAt st i = some k → slotAt st j = some k → i = j

/-- The invariant of reachable table states. -/
structure Wf (m : HM K V) : Prop where
  hsize : m.storage.size = m.capacity
  hcap : 0 < m.capacity
  hpow : ∃ n, m.capacity = 2 ^ n
  hload : m.size_ * 4 < m.capacity * 3
  hlen : m.size_ = m.chain.length
  hnodup : (m.chain.map Entry.key).Nodup
  hmem : ∀ k, (∃ i, i < m.capacity ∧ slotAt m.storage i = some k) ↔ k ∈ m.chain.map Entry.key
  hsnd : SlotsNodup m.capacity m.storage
  hpos : ∀ e ∈ m.chain, e.pos < m.capacity ∧ slotAt m.storage e.pos = some e.key
  hcontig : Contig m.hasher m.capacity m.storage

/-- A table state reachable from the empty table by public operations. -/
def Reachable [DecidableEq K] [Inhabited V] (hasher : K → Nat) (m : HM K V) : Prop :=
  ∃ ops, run (init hasher) ops = some m

theorem setD_eq_set {st : Array (Option K)} {p : Nat} (hp : p < st.size) (v : Option K) :
    st.setD p v = st.set ⟨p, hp⟩ v := by
  simp [Array.setD, hp]

theorem size_setD (st : Array (Option K)) (p : Nat) (v : Option K) :
    (st.setD p v).size = st.size :=
  Array.size_setD st p v

theorem slotAt_setD {st : Array (Option K)} {p : Nat} (hp : p < st.size) (v : Option K)
    (i : Nat) : slotAt (st.setD p v) i = if i = p then v else slotAt st i := by
  rw [setD_eq_set hp]
  unfold slotAt Array.getD
  by_cases hi : i < st.size
  · have hi' : i < (st.set ⟨p, hp⟩ v).size := by simpa using hi
    rw [dif_pos hi', dif_pos hi]
    simp only [Array.get_eq_getElem]
    rw [Array.get_set]
    rcases eq_or_ne i p with h | h
    · subst h; simp
    · simp only [Fin.val_mk]
      rw [if_neg (Ne.symm h), if_neg h]
  · have hi' : ¬ i < (st.set ⟨p, hp⟩ v).size := by simpa using hi
    rw [dif_neg hi', dif_neg hi, if_neg (by omega)]

theorem slotAt_mkArray (n i : Nat) : slotAt (Array.mkArray n (none : Option K)) i = none := by
  unfold slotAt Array.getD
  split
  · simp
  · rfl

theorem cyclic_inc_lt {cap i : Nat} (hcap : 0 < cap) (h : i < cap) :
    cyclic_inc cap i < cap := by
  unfold cyclic_inc; split <;> omega

theorem dist_lt {cap a b : Nat} (hcap : 0 < cap) (ha : a < cap) (hb : b < cap) :
    dist cap a b < cap := by
  unfold dist; split <;> omega

theorem dist_self (cap a : Nat) : dist cap a a = 0 := by
  unfold dist; simp

theorem dist_inj {cap a b b' : Nat} (ha : a < cap) (hb : b < cap) (hb' : b' < cap)
    (h : dist cap a b = dist cap a b') : b = b' := by
  unfold dist at h; split_ifs at h <;> omega

theorem dist_cyclic_inc {cap a b : Nat} (hcap : 0 < cap) (ha : a < cap) (hb : b < cap)
    (hne : b ≠ a) : dist cap a b = dist cap (cyclic_inc cap a) b + 1 := by
  unfold dist cyclic_inc; split_ifs <;> omega

theorem dist_cyclic_inc_self {cap a : Nat} (hcap : 0 < cap) (ha : a < cap) :
    dist cap (cyclic_inc cap a) a = cap - 1 := by
  unfold dist cyclic_inc; split_ifs <;> omega

theorem is_in_range_iff {cap i a b : Nat} (hi : i < cap) (ha : a < cap) (hb : b < cap) :
    is_in_range i a b = true ↔ dist cap a i ≤ dist cap a b := by
  unfold is_in_range dist
  split_ifs <;> simp only [Bool.and_eq_true, Bool.or_eq_true, decide_eq_true_eq] <;> omega

theorem dist_compl {cap h p i : Nat} (hcap : 0 < cap) (hh : h < cap) (hp : p < cap)
    (hi : i < cap) (hne : i ≠ p) :
    dist cap (cyclic_inc cap p) h ≤ dist cap (cyclic_inc cap p) i ↔
      ¬ dist cap h p ≤ dist cap h i := by
  unfold dist cyclic_inc; split_ifs <;> omega

theorem dist_subrange {cap h p q i : Nat} (hcap : 0 < cap) (hh : h < cap) (hp : p < cap)
    (hq : q < cap) (hi : i < cap) (hne : i ≠ p)
    (h1 : dist cap h p ≤ dist cap h i)
    (h2 : dist cap (cyclic_inc cap p) q < dist cap (cyclic_inc cap p) i) :
    dist cap h q ≤ dist cap h i := by
  unfold dist cyclic_inc at *; split_ifs at * <;> omega

theorem dist_measure {cap p q e : Nat} (hcap : 0 < cap) (hp : p < cap) (hq : q < cap)
    (he : e < cap) (hqe : q ≠ e) (hep : e ≠ p)
    (hle : dist cap (cyclic_inc cap p) q ≤ dist cap (cyclic_inc cap p) e) :
    dist cap q e < dist cap p e := by
  unfold dist cyclic_inc at *; split_ifs at * <;> omega

theorem scanFirst_some {cap : Nat} {P : Nat → Bool} (hcap : 0 < cap) :
    ∀ {fuel s j : Nat}, s < cap → scanFirst cap P fuel s = some j →
      j < cap ∧ P j = true ∧ ∀ x, x < cap → dist cap s x < dist cap s j → P x = false := by
  intro fuel
  induction fuel with
  | zero => intro s j _ h; simp [scanFirst] at h
  | succ fuel ih =>
    intro s j hs h
    unfold scanFirst at h
    split at h
    next hP =>
      cases h
      refine ⟨hs, hP, ?_⟩
      intro x hx hd
      rw [dist_self] at hd; omega
    next hP =>
      have hs' := cyclic_inc_lt hcap hs
      obtain ⟨hj, hPj, hmin⟩ := ih hs' h
      refine ⟨hj, hPj, ?_⟩
      intro x hx hd
      rcases eq_or_ne x s with rfl | hxs
      · simpa using hP
      · have hjs : j ≠ s := by rintro rfl; exact hP hPj
        rw [dist_cyclic_inc hcap hs hx hxs, dist_cyclic_inc hcap hs hj hjs] at hd
        exact hmin x hx (by omega)

theorem scanFirst_isSome_of {cap : Nat} {P : Nat → Bool} (hcap : 0 < cap) :
    ∀ {fuel s x : Nat}, s < cap → x < cap → P x = true → dist cap s x < fuel →
      (scanFirst cap P fuel s).isSome := by
  intro fuel
  induction fuel with
  | zero => intro s x _ _ _ h; omega
  | succ fuel ih =>
    intro s x hs hx hPx hd
    unfold scanFirst
    split
    · simp
    next hP =>
      have hxs : x ≠ s := by rintro rfl; exact hP hPx
      apply ih (cyclic_inc_lt hcap hs) hx hPx
      rw [dist_cyclic_inc hcap hs hx hxs] at hd
      omega

theorem scanFirst_spec {cap : Nat} {P : Nat → Bool} (hcap : 0 < cap) {s x : Nat}
    (hs : s < cap) (hx : x < cap) (hPx : P x = true) :
    ∃ j, scanFirst cap P cap s = some j ∧ j < cap ∧ P j = true ∧
      ∀ y, y < cap → dist cap s y < dist cap s j → P y = false := by
  have h1 := scanFirst_isSome_of hcap hs hx hPx (dist_lt hcap hs hx)
  obtain ⟨j, hj⟩ := Option.isSome_iff_exists.mp h1
  obtain ⟨hjlt, hPj, hmin⟩ := scanFirst_some hcap hs hj
  exact ⟨j, hj, hjlt, hPj, hmin⟩

theorem homeOf_lt {hasher : K → Nat} {cap : Nat} (hcap : 0 < cap) (k : K) :
    homeOf hasher cap k < cap :=
  Nat.mod_lt _ hcap

theorem find_pos_st_spec [DecidableEq K] {hasher : K → Nat} {cap : Nat}
    {st : Array (Option K)} (k : K) (hcap : 0 < cap)
    (hemp : ∃ i, i < cap ∧ slotAt st i = none) :
    ∃ p, find_pos_st hasher cap st k = some p ∧ p < cap ∧
      (slotAt st p = none ∨ slotAt st p = some k) ∧
      ∀ x, x < cap → dist cap (homeOf hasher cap k) x < dist cap (homeOf hasher cap k) p →
        ∃ k', slotAt st x = some k' ∧ k' ≠ k := by
  obtain ⟨i0, hi0, hi0n⟩ := hemp
  have hP0 : (fun i =>
      match slotAt st i with
      | none => true
      | some k' => decide (k' = k)) i0 = true := by
    simp only [hi0n]
  obtain ⟨j, hj, hjlt, hPj, hmin⟩ :=
    @scanFirst_spec cap
      (fun i =>
        match slotAt st i with
        | none => true
        | some k' => decide (k' = k))
      hcap (homeOf hasher cap k) i0 (homeOf_lt hcap k) hi0 hP0
  refine ⟨j, hj, hjlt, ?_, ?_⟩
  · cases hs : slotAt st j with
    | none => exact Or.inl rfl
    | some k' =>
      right
      simp only [hs, decide_eq_true_eq] at hPj
      rw [hPj]
  · intro x hx hd
    have hPx := hmin x hx hd
    cases hs : slotAt st x with
    | none => simp [hs] at hPx
    | some k' =>
      simp [hs] at hPx
      exact ⟨k', rfl, hPx⟩

theorem find_pos_st_of_mem [DecidableEq K] {hasher : K → Nat} {cap : Nat}
    {st : Array (Option K)} {k : K} {i : Nat} (hcap : 0 < cap)
    (hemp : ∃ i, i < cap ∧ slotAt st i = none)
    (hsnd : SlotsNodup cap st) (hcontig : Contig hasher cap st)
    (hi : i < cap) (hik : slotAt st i = some k) :
    find_pos_st hasher cap st k = some i := by
  obtain ⟨p, hp, hplt, hpd, hmin⟩ := find_pos_st_spec k hcap hemp
  rcases hpd with hnone | hsome
  · by_cases hle : dist cap (homeOf hasher cap k) p ≤ dist cap (homeOf hasher cap k) i
    · have h2 := hcontig i k hi hik p hplt hle
      rw [hnone] at h2
      simp at h2
    · obtain ⟨k', hk', hne⟩ := hmin i hi (Nat.lt_of_not_le hle)
      rw [hik] at hk'
      have : k = k' := by injection hk'
      exact absurd this.symm hne
  · have := hsnd p i k hplt hi hsome hik
    rw [← this]
    exact hp

theorem find_pos_st_of_not_mem [DecidableEq K] {hasher : K → Nat} {cap : Nat}
    {st : Array (Option K)} {k : K} (hcap : 0 < cap)
    (hemp : ∃ i, i < cap ∧ slotAt st i = none)
    (hnot : ∀ i, i < cap → slotAt st i ≠ some k) :
    ∃ p, find_pos_st hasher cap st k = some p ∧ p < cap ∧ slotAt st p = none ∧
      ∀ x, x < cap → dist cap (homeOf hasher cap k) x < dist cap (homeOf hasher cap k) p →
        (slotAt st x).isSome := by
  obtain ⟨p, hp, hplt, hpd, hmin⟩ := find_pos_st_spec k hcap hemp
  rcases hpd with hnone | hsome
  · refine ⟨p, hp, hplt, hnone, ?_⟩
    intro x hx hd
    obtain ⟨k', hk', _⟩ := hmin x hx hd
    rw [hk']
    rfl
  · exact absurd hsome (hnot p hplt)

theorem length_occupied_le {cap : Nat} {st : Array (Option K)} {ch : List (Entry K V)}
    (hpos : ∀ e ∈ ch, e.pos < cap ∧ slotAt st e.pos = some e.key)
    (hsnd : SlotsNodup cap st)
    (hmem : ∀ k, (∃ i, i < cap ∧ slotAt st i = some k) → k ∈ ch.map Entry.key) :
    ((List.range cap).filter fun i => (slotAt st i).isSome).length ≤ ch.length := by
  have hsub : ((List.range cap).filter fun i => (slotAt st i).isSome) ⊆ ch.map Entry.pos := by
    intro i hi
    rw [List.mem_filter, List.mem_range] at hi
    obtain ⟨hilt, hocc⟩ := hi
    obtain ⟨k, hk⟩ := Option.isSome_iff_exists.mp hocc
    have hkch := hmem k ⟨i, hilt, hk⟩
    rw [List.mem_map] at hkch
    obtain ⟨e, he, hek⟩ := hkch
    obtain ⟨hep, hes⟩ := hpos e he
    have hpi : e.pos = i := hsnd e.pos i k hep hilt (by rw [hes, hek]) hk
    rw [List.mem_map]
    exact ⟨e, he, hpi⟩
  have hnd : ((List.range cap).filter fun i => (slotAt st i).isSome).Nodup :=
    (List.nodup_range cap).filter _
  calc ((List.range cap).filter fun i => (slotAt st i).isSome).length
      ≤ (ch.map Entry.pos).length := (hnd.subperm hsub).length_le
    _ = ch.length := List.length_map _ _

theorem exists_empty_slot {cap : Nat} {st : Array (Option K)} {ch : List (Entry K V)}
    (hpos : ∀ e ∈ ch, e.pos < cap ∧ slotAt st e.pos = some e.key)
    (hsnd : SlotsNodup cap st)
    (hmem : ∀ k, (∃ i, i < cap ∧ slotAt st i = some k) → k ∈ ch.map Entry.key)
    (hlen : ch.length < cap) :
    ∃ i, i < cap ∧ slotAt st i = none := by
  by_contra hcon
  push_neg at hcon
  have hall : ((List.range cap).filter fun i => (slotAt st i).isSome) = List.range cap := by
    apply List.filter_eq_self.mpr
    intro i hi
    rw [List.mem_range] at hi
    have hne := hcon i hi
    cases hs : slotAt st i with
    | none => exact absurd hs hne
    | some k' => rfl
  have h1 := length_occupied_le hpos hsnd hmem
  rw [hall, List.length_range] at h1
  omega

theorem exists_empty_slot_ne {cap p : Nat} {st : Array (Option K)} {ch : List (Entry K V)}
    (hpos : ∀ e ∈ ch, e.pos < cap ∧ slotAt st e.pos = some e.key)
    (hsnd : SlotsNodup cap st)
    (hmem : ∀ k, (∃ i, i < cap ∧ slotAt st i = some k) → k ∈ ch.map Entry.key)
    (hp : p < cap) (hlen : ch.length + 1 < cap) :
    ∃ i, i < cap ∧ i ≠ p ∧ slotAt st i = none := by
  by_contra hcon
  push_neg at hcon
  have hsub : (List.range cap).erase p ⊆
      (List.range cap).filter fun i => (slotAt st i).isSome := by
    intro i hi
    obtain ⟨hine, hirange⟩ := (List.Nodup.mem_erase_iff (List.nodup_range cap)).mp hi
    rw [List.mem_range] at hirange
    rw [List.mem_filter, List.mem_range]
    refine ⟨hirange, ?_⟩
    have hne := hcon i hirange hine
    cases hs : slotAt st i with
    | none => exact absurd hs hne
    | some k' => rfl
  have hnd : ((List.range cap).erase p).Nodup := (List.nodup_range cap).erase p
  have h2 := (hnd.subperm hsub).length_le
  have h3 := length_occupied_le hpos hsnd hmem
  have h4 : ((List.range cap).erase p).length = cap - 1 := by
    rw [List.length_erase_of_mem (by rw [List.mem_range]; exact hp), List.length_range]
  omega

theorem find_next_spec {hasher : K → Nat} {cap : Nat} {st : Array (Option K)} {pos : Nat}
    (hcap : 0 < cap) (hpos : pos < cap)
    (hemp : ∃ i, i < cap ∧ slotAt st i = none) :
    ∃ q, find_next hasher cap st pos = some q ∧ q < cap ∧
      (slotAt st q = none ∨ ∃ k', slotAt st q = some k' ∧
        is_in_range (homeOf hasher cap k') (cyclic_inc cap pos) q = false) ∧
      ∀ x, x < cap → dist cap (cyclic_inc cap pos) x < dist cap (cyclic_inc cap pos) q →
        ∃ k', slotAt st x = some k' ∧
          is_in_range (homeOf hasher cap k') (cyclic_inc cap pos) x = true := by
  obtain ⟨i0, hi0, hi0n⟩ := hemp
  have hP0 : (fun i =>
      match slotAt st i with
      | none => true
      | some k' => ! is_in_range (homeOf hasher cap k') (cyclic_inc cap pos) i) i0 = true := by
    simp only [hi0n]
  obtain ⟨q, hq, hqlt, hPq, hmin⟩ :=
    @scanFirst_spec cap
      (fun i =>
        match slotAt st i with
        | none => true
        | some k' => ! is_in_range (homeOf hasher cap k') (cyclic_inc cap pos) i)
      hcap (cyclic_inc cap pos) i0 (cyclic_inc_lt hcap hpos) hi0 hP0
  refine ⟨q, hq, hqlt, ?_, ?_⟩
  · cases hs : slotAt st q with
    | none => exact Or.inl rfl
    | some k' =>
      right
      simp [hs] at hPq
      exact ⟨k', rfl, hPq⟩
  · intro x hx hd
    have hPx := hmin x hx hd
    cases hs : slotAt st x with
    | none => simp [hs] at hPx
    | some k' =>
      simp [hs] at hPx
      exact ⟨k', rfl, hPx⟩

theorem contig_of_compaction_end {hasher : K → Nat} {cap : Nat} {st : Array (Option K)}
    {p q : Nat} (hcap : 0 < cap) (hp : p < cap) (hq : q < cap)
    (hpn : slotAt st p = none) (hqn : slotAt st q = none)
    (hce : ContigExcept hasher cap st p)
    (hmin : ∀ x, x < cap → dist cap (cyclic_inc cap p) x < dist cap (cyclic_inc cap p) q →
      ∃ k', slotAt st x = some k' ∧
        is_in_range (homeOf hasher cap k') (cyclic_inc cap p) x = true) :
    Contig hasher cap st := by
  intro i k hi hik j hj hd
  by_cases hjp : j = p
  · subst hjp
    exfalso
    have hip : i ≠ j := by
      rintro rfl
      rw [hpn] at hik
      cases hik
    have hstepA : dist cap (cyclic_inc cap j) i < dist cap (cyclic_inc cap j) q := by
      by_contra hA
      push_neg at hA
      have hqi : q ≠ i := by
        rintro rfl
        rw [hqn] at hik
        cases hik
      have hqp : q ≠ j := by
        rintro rfl
        rw [dist_cyclic_inc_self hcap hj] at hA
        have h1 := dist_lt hcap (cyclic_inc_lt hcap hj) hi
        have h2 : dist cap (cyclic_inc cap q) i = cap - 1 := by omega
        have h3 : dist cap (cyclic_inc cap q) i = dist cap (cyclic_inc cap q) q := by
          rw [h2, dist_cyclic_inc_self hcap hj]
        exact hip (dist_inj (cyclic_inc_lt hcap hj) hi hj h3)
      have hstrict : dist cap (cyclic_inc cap j) q < dist cap (cyclic_inc cap j) i :=
        Nat.lt_of_le_of_ne hA (fun heq => hqi (dist_inj (cyclic_inc_lt hcap hj) hq hi heq))
      have hqr : dist cap (homeOf hasher cap k) q ≤ dist cap (homeOf hasher cap k) i :=
        dist_subrange hcap (homeOf_lt hcap k) hj hq hi hip hd hstrict
      have hqocc := hce i k hi hik q hq hqr hqp
      rw [hqn] at hqocc
      simp at hqocc
    obtain ⟨k', hk', hr⟩ := hmin i hi hstepA
    rw [hik] at hk'
    have hkk : k = k' := by injection hk'
    subst hkk
    rw [is_in_range_iff (homeOf_lt hcap k) (cyclic_inc_lt hcap hj) hi] at hr
    rw [dist_compl hcap (homeOf_lt hcap k) hj hi hip] at hr
    exact hr hd
  · exact hce i k hi hik j hj hd hjp

theorem slotAt_move {st : Array (Option K)} {cap p q : Nat} {kq : K}
    (hsize : st.size = cap) (hp : p < cap) (hq : q < cap) (i : Nat) :
    slotAt ((st.setD p (some kq)).setD q none) i =
      if i = q then none else if i = p then some kq else slotAt st i := by
  have h1 : q < (st.setD p (some kq)).size := by rw [size_setD, hsize]; exact hq
  have h2 : p < st.size := by rw [hsize]; exact hp
  rw [slotAt_setD h1 none i]
  rcases eq_or_ne i q with rfl | hiq
  · simp
  · rw [if_neg hiq, if_neg hiq, slotAt_setD h2 (some kq) i]

theorem compaction_step {hasher : K → Nat} {cap : Nat} {st : Array (Option K)}
    {p q : Nat} {kq : K}
    (hsize : st.size = cap) (hcap : 0 < cap) (hp : p < cap) (hq : q < cap)
    (hpn : slotAt st p = none) (hqs : slotAt st q = some kq)
    (hce : ContigExcept hasher cap st p)
    (hsnd : SlotsNodup cap st)
    (hnr : is_in_range (homeOf hasher cap kq) (cyclic_inc cap p) q = false) :
    slotAt ((st.setD p (some kq)).setD q none) q = none ∧
    ContigExcept hasher cap ((st.setD p (some kq)).setD q none) q ∧
    SlotsNodup cap ((st.setD p (some kq)).setD q none) ∧
    (∀ k, (∃ i, i < cap ∧ slotAt ((st.setD p (some kq)).setD q none) i = some k) ↔
      (∃ i, i < cap ∧ slotAt st i = some k)) := by
  have hpq : p ≠ q := by
    rintro rfl
    rw [hpn] at hqs
    cases hqs
  have hslot : ∀ i, slotAt ((st.setD p (some kq)).setD q none) i =
      if i = q then none else if i = p then some kq else slotAt st i :=
    fun i => slotAt_move hsize hp hq i
  have hd2 : dist cap (homeOf hasher cap kq) p ≤ dist cap (homeOf hasher cap kq) q := by
    have hr : ¬ dist cap (cyclic_inc cap p) (homeOf hasher cap kq) ≤
        dist cap (cyclic_inc cap p) q := by
      rw [← is_in_range_iff (homeOf_lt hcap kq) (cyclic_inc_lt hcap hp) hq]
      simp [hnr]
    rw [dist_compl hcap (homeOf_lt hcap kq) hp hq (Ne.symm hpq)] at hr
    exact Decidable.not_not.mp hr
  refine ⟨?_, ?_, ?_, ?_⟩
  · rw [hslot q, if_pos rfl]
  · intro i k hi hik j hj hd hjq
    rw [hslot i] at hik
    rw [hslot j, if_neg hjq]
    by_cases hiq : i = q
    · rw [if_pos hiq] at hik
      cases hik
    · rw [if_neg hiq] at hik
      by_cases hip : i = p
      · rw [if_pos hip] at hik
        have hkkq : kq = k := by injection hik
        rw [hkkq] at hd2 hqs
        rw [hip] at hd
        by_cases hjp : j = p
        · rw [if_pos hjp]
          simp
        · rw [if_neg hjp]
          exact hce q k hq hqs j hj (le_trans hd hd2) hjp
      · rw [if_neg hip] at hik
        by_cases hjp : j = p
        · rw [if_pos hjp]
          simp
        · rw [if_neg hjp]
          exact hce i k hi hik j hj hd hjp
  · intro i j k hi hj hik hjk
    rw [hslot i] at hik
    rw [hslot j] at hjk
    by_cases hiq : i = q
    · rw [if_pos hiq] at hik
      cases hik
    · rw [if_neg hiq] at hik
      by_cases hjq : j = q
      · rw [if_pos hjq] at hjk
        cases hjk
      · rw [if_neg hjq] at hjk
        by_cases hip : i = p
        · rw [if_pos hip] at hik
          by_cases hjp : j = p
          · rw [hip, hjp]
          · exfalso
            rw [if_neg hjp] at hjk
            have hkkq : kq = k := by injection hik
            rw [← hkkq] at hjk
            exact hjq (hsnd j q kq hj hq hjk hqs)
        · rw [if_neg hip] at hik
          by_cases hjp : j = p
          · exfalso
            rw [if_pos hjp] at hjk
            have hkkq : kq = k := by injection hjk
            rw [← hkkq] at hik
            exact hiq (hsnd i q kq hi hq hik hqs)
          · rw [if_neg hjp] at hjk
            exact hsnd i j k hi hj hik hjk
  · intro k
    constructor
    · rintro ⟨i, hi, hik⟩
      rw [hslot i] at hik
      by_cases hiq : i = q
      · rw [if_pos hiq] at hik
        cases hik
      · rw [if_neg hiq] at hik
        by_cases hip : i = p
        · rw [if_pos hip] at hik
          have hkkq : kq = k := by injection hik
          rw [← hkkq]
          exact ⟨q, hq, hqs⟩
        · rw [if_neg hip] at hik
          exact ⟨i, hi, hik⟩
    · rintro ⟨i, hi, hik⟩
      by_cases hiq : i = q
      · rw [hiq, hqs] at hik
        have hkkq : kq = k := by injection hik
        refine ⟨p, hp, ?_⟩
        rw [hslot p, if_neg hpq, if_pos rfl, hkkq]
      · have hip : i ≠ p := by
          rintro rfl
          rw [hpn] at hik
          cases hik
        refine ⟨i, hi, ?_⟩
        rw [hslot i, if_neg hiq, if_neg hip]
        exact hik

theorem chainUpdate_map_key [DecidableEq K] (ch : List (Entry K V)) (kq : K) (p : Nat) :
    ((ch.map fun e => if e.key = kq then { e with pos := p } else e).map Entry.key) =
      ch.map Entry.key := by
  rw [List.map_map]
  apply List.map_congr_left
  intro e _
  by_cases h : e.key = kq <;> simp [h]

theorem chainUpdate_map_kv [DecidableEq K] (ch : List (Entry K V)) (kq : K) (p : Nat) :
    ((ch.map fun e => if e.key = kq then { e with pos := p } else e).map
        fun e => (e.key, e.value)) =
      ch.map fun e => (e.key, e.value) := by
  rw [List.map_map]
  apply List.map_congr_left
  intro e _
  by_cases h : e.key = kq <;> simp [h]

theorem eraseLoop_spec [DecidableEq K] {hasher : K → Nat} {cap : Nat} :
    ∀ (fuel : Nat) (st : Array (Option K)) (ch : List (Entry K V)) (p e : Nat),
      st.size = cap → 0 < cap → p < cap → slotAt st p = none →
      ContigExcept hasher cap st p →
      SlotsNodup cap st →
      (∀ k, (∃ i, i < cap ∧ slotAt st i = some k) ↔ k ∈ ch.map Entry.key) →
      (∀ a ∈ ch, a.pos < cap ∧ slotAt st a.pos = some a.key) →
      e < cap → e ≠ p → slotAt st e = none →
      dist cap p e < fuel →
      ∃ st' ch', eraseLoop hasher cap fuel st ch p = some (st', ch') ∧
        st'.size = cap ∧
        Contig hasher cap st' ∧
        SlotsNodup cap st' ∧
        (∀ k, (∃ i, i < cap ∧ slotAt st' i = some k) ↔ k ∈ ch'.map Entry.key) ∧
        (∀ a ∈ ch', a.pos < cap ∧ slotAt st' a.pos = some a.key) ∧
        ch'.map Entry.key = ch.map Entry.key ∧
        (ch'.map fun a => (a.key, a.value)) = ch.map fun a => (a.key, a.value) := by
  intro fuel
  induction fuel with
  | zero =>
    intro st ch p e _ _ _ _ _ _ _ _ _ _ _ hfuel
    omega
  | succ fuel ih =>
    intro st ch p e hsize hcap hp hpn hce hsnd hmem hposc he hep hen hfuel
    obtain ⟨q, hfn, hqlt, hqd, hqmin⟩ := find_next_spec hcap hp ⟨e, he, hen⟩
    rcases hqd with hqn | ⟨kq, hqs, hnr⟩
    · have hstepeq : eraseLoop hasher cap (fuel + 1) st ch p = some (st, ch) := by
        unfold eraseLoop
        split
        next hcon => rw [hfn] at hcon; cases hcon
        next nextPos hsome =>
          rw [hfn] at hsome
          cases hsome
          split
          next => rfl
          next k' hk' => rw [hqn] at hk'; cases hk'
      refine ⟨st, ch, hstepeq, hsize, ?_, hsnd, hmem, hposc, rfl, rfl⟩
      exact contig_of_compaction_end hcap hp hqlt hpn hqn hce hqmin
    · have hpq : p ≠ q := by
        rintro rfl
        rw [hpn] at hqs
        cases hqs
      have heq2 : e ≠ q := by
        rintro rfl
        rw [hen] at hqs
        cases hqs
      obtain ⟨hq'n, hce', hsnd', hmemeq⟩ :=
        compaction_step hsize hcap hp hqlt hpn hqs hce hsnd hnr
      have hslot : ∀ i, slotAt ((st.setD p (some kq)).setD q none) i =
          if i = q then none else if i = p then some kq else slotAt st i :=
        fun i => slotAt_move hsize hp hqlt i
      have hsize1 : ((st.setD p (some kq)).setD q none).size = cap := by
        rw [size_setD, size_setD, hsize]
      have hmem1 : ∀ k, (∃ i, i < cap ∧ slotAt ((st.setD p (some kq)).setD q none) i = some k) ↔
          k ∈ ((ch.map fun a => if a.key = kq then { a with pos := p } else a).map Entry.key) := by
        intro k
        rw [chainUpdate_map_key]
        exact (hmemeq k).trans (hmem k)
      have hposc1 : ∀ a ∈ (ch.map fun a => if a.key = kq then { a with pos := p } else a),
          a.pos < cap ∧ slotAt ((st.setD p (some kq)).setD q none) a.pos = some a.key := by
        intro a ha
        rw [List.mem_map] at ha
        obtain ⟨b, hb, hba⟩ := ha
        by_cases hbk : b.key = kq
        · rw [if_pos hbk] at hba
          rw [← hba]
          show p < cap ∧ slotAt ((st.setD p (some kq)).setD q none) p = some b.key
          refine ⟨hp, ?_⟩
          rw [hslot p, if_neg hpq, if_pos rfl, hbk]
        · rw [if_neg hbk] at hba
          rw [← hba]
          obtain ⟨hbp, hbs⟩ := hposc b hb
          refine ⟨hbp, ?_⟩
          rw [hslot b.pos]
          have h1 : b.pos ≠ q := by
            intro heq
            rw [heq, hqs] at hbs
            have : kq = b.key := by injection hbs
            exact hbk this.symm
          have h2 : b.pos ≠ p := by
            intro heq
            rw [heq, hpn] at hbs
            cases hbs
          rw [if_neg h1, if_neg h2]
          exact hbs
      have hen1 : slotAt ((st.setD p (some kq)).setD q none) e = none := by
        rw [hslot e, if_neg heq2, if_neg hep]
        exact hen
      have hle : dist cap (cyclic_inc cap p) q ≤ dist cap (cyclic_inc cap p) e := by
        by_contra hcon
        push_neg at hcon
        obtain ⟨k', hk', _⟩ := hqmin e he hcon
        rw [hen] at hk'
        cases hk'
      have hmeasure : dist cap q e < dist cap p e :=
        dist_measure hcap hp hqlt he (fun h => heq2 h.symm) hep hle
      obtain ⟨st', ch', hrec, h1, h2, h3, h4, h5, h6, h7⟩ :=
        ih ((st.setD p (some kq)).setD q none)
          (ch.map fun a => if a.key = kq then { a with pos := p } else a) q e
          hsize1 hcap hqlt hq'n hce' hsnd' hmem1 hposc1 he heq2 hen1 (by omega)
      have hstepeq : eraseLoop hasher cap (fuel + 1) st ch p =
          eraseLoop hasher cap fuel ((st.setD p (some kq)).setD q none)
            (ch.map fun a => if a.key = kq then { a with pos := p } else a) q := by
        simp only [eraseLoop]
        split
        next hcon => rw [hfn] at hcon; cases hcon
        next nextPos hsome =>
          rw [hfn] at hsome
          cases hsome
          split
          next hk' => rw [hqs] at hk'; cases hk'
          next k' hk' =>
            rw [hqs] at hk'
            cases hk'
            rfl
      refine ⟨st', ch', ?_, h1, h2, h3, h4, h5, ?_, ?_⟩
      · rw [hstepeq]
        exact hrec
      · rw [h6, chainUpdate_map_key]
      · rw [h7, chainUpdate_map_kv]

theorem slotAt_oob {st : Array (Option K)} {i : Nat} (h : st.size ≤ i) :
    slotAt st i = none := by
  unfold slotAt Array.getD
  rw [dif_neg (by omega)]

theorem refLookup_isSome_iff [DecidableEq K] (σ : List (K × V)) (k : K) :
    (refLookup σ k).isSome ↔ k ∈ σ.map Prod.fst := by
  unfold refLookup
  rw [Option.isSome_map', List.find?_isSome]
  simp [List.mem_map]

theorem absMap_keys (m : HM K V) : (absMap m).map Prod.fst = m.chain.map Entry.key := by
  unfold absMap
  rw [List.map_map]
  rfl

theorem refLookup_cons [DecidableEq K] (p : K × V) (σ : List (K × V)) (k : K) :
    refLookup (p :: σ) k = if p.1 = k then some p.2 else refLookup σ k := by
  unfold refLookup
  by_cases h : p.1 = k
  · rw [List.find?_cons_of_pos _ (by simp [h]), if_pos h]
    rfl
  · rw [List.find?_cons_of_neg _ (by simp [h]), if_neg h]

theorem refLookup_append [DecidableEq K] (σ τ : List (K × V)) (k : K) :
    refLookup (σ ++ τ) k = (refLookup σ k).or (refLookup τ k) := by
  unfold refLookup
  rw [List.find?_append]
  cases List.find? (fun p => decide (p.1 = k)) σ <;> simp [Option.or]

theorem refInsert_of_isSome [DecidableEq K] {σ : List (K × V)} {kv : K × V}
    (h : (refLookup σ kv.1).isSome) : refInsert σ kv = σ := by
  unfold refInsert
  rw [if_pos h]

theorem refInsert_of_none [DecidableEq K] {σ : List (K × V)} {kv : K × V}
    (h : refLookup σ kv.1 = none) : refInsert σ kv = σ ++ [kv] := by
  unfold refInsert
  rw [if_neg (by simp [h])]

theorem refInsertList_lookup_of_isSome [DecidableEq K] {k : K} {v : V} :
    ∀ (ps : List (K × V)) (σ), refLookup σ k = some v →
      refLookup (refInsertList σ ps) k = some v := by
  intro ps
  induction ps with
  | nil => intro σ h; exact h
  | cons kv ps ih =>
    intro σ h
    unfold refInsertList
    apply ih
    unfold refInsert
    split
    · exact h
    · rw [refLookup_append, h]
      rfl

theorem refInsertList_lookup_of_none [DecidableEq K] {k : K} :
    ∀ (ps : List (K × V)) (σ), refLookup σ k = none →
      refLookup (refInsertList σ ps) k = refLookup ps k := by
  intro ps
  induction ps with
  | nil =>
    intro σ h
    exact h
  | cons kv ps ih =>
    intro σ h
    unfold refInsertList
    rw [refLookup_cons]
    by_cases hk : kv.1 = k
    · rw [if_pos hk]
      have hnone : refLookup σ kv.1 = none := by rw [hk]; exact h
      rw [refInsert_of_none hnone]
      apply refInsertList_lookup_of_isSome ps _
      rw [refLookup_append, h, refLookup_cons, if_pos hk]
      rfl
    · rw [if_neg hk]
      by_cases hs : (refLookup σ kv.1).isSome
      · rw [refInsert_of_isSome hs]
        exact ih σ h
      · have hn : refLookup σ kv.1 = none := Option.not_isSome_iff_eq_none.mp hs
        rw [refInsert_of_none hn]
        apply ih
        rw [refLookup_append, h, refLookup_cons, if_neg hk]
        rfl

theorem refInsertList_nodup [DecidableEq K] :
    ∀ (ps : List (K × V)) (σ), (σ.map Prod.fst).Nodup →
      ((refInsertList σ ps).map Prod.fst).Nodup := by
  intro ps
  induction ps with
  | nil => intro σ h; exact h
  | cons kv ps ih =>
    intro σ h
    unfold refInsertList
    apply ih
    by_cases hs : (refLookup σ kv.1).isSome
    · rw [refInsert_of_isSome hs]
      exact h
    · have hn : refLookup σ kv.1 = none := Option.not_isSome_iff_eq_none.mp hs
      rw [refInsert_of_none hn]
      have hmem : kv.1 ∉ σ.map Prod.fst := by
        rw [← refLookup_isSome_iff]
        simp [hn]
      rw [List.map_append]
      simp [List.nodup_append, h, hmem]

theorem refInsertList_keys_toFinset [DecidableEq K] :
    ∀ (ps : List (K × V)) (σ),
      ((refInsertList σ ps).map Prod.fst).toFinset =
        (σ.map Prod.fst).toFinset ∪ (ps.map Prod.fst).toFinset := by
  intro ps
  induction ps with
  | nil => intro σ; simp [refInsertList]
  | cons kv ps ih =>
    intro σ
    unfold refInsertList
    rw [ih]
    by_cases hs : (refLookup σ kv.1).isSome
    · rw [refInsert_of_isSome hs]
      have hm : kv.1 ∈ σ.map Prod.fst := (refLookup_isSome_iff σ kv.1).mp hs
      ext x
      simp only [Finset.mem_union, List.mem_toFinset, List.map_cons, List.mem_cons]
      constructor
      · rintro (h1 | h2)
        · exact Or.inl h1
        · exact Or.inr (Or.inr h2)
      · rintro (h1 | rfl | h2)
        · exact Or.inl h1
        · exact Or.inl hm
        · exact Or.inr h2
    · have hn : refLookup σ kv.1 = none := Option.not_isSome_iff_eq_none.mp hs
      rw [refInsert_of_none hn]
      ext x
      simp only [Finset.mem_union, List.mem_toFinset, List.map_cons, List.mem_cons,
        List.map_append, List.mem_append, List.mem_singleton]
      tauto

theorem refInsertList_of_nodup [DecidableEq K] :
    ∀ (ps : List (K × V)) (σ), ((ps.map Prod.fst).Nodup) →
      (∀ p ∈ ps, p.1 ∉ σ.map Prod.fst) →
      refInsertList σ ps = σ ++ ps := by
  intro ps
  induction ps with
  | nil => intro σ _ _; simp [refInsertList]
  | cons kv ps ih =>
    intro σ hnd hdisj
    unfold refInsertList
    have hn : refLookup σ kv.1 = none := by
      rw [← Option.not_isSome_iff_eq_none, refLookup_isSome_iff]
      exact hdisj kv (List.mem_cons_self kv ps)
    rw [refInsert_of_none hn]
    rw [List.map_cons] at hnd
    have hd2 : ∀ p ∈ ps, p.1 ∉ (σ ++ [kv]).map Prod.fst := by
      intro p hp
      rw [List.map_append, List.mem_append]
      rintro (h1 | h2)
      · exact hdisj p (List.mem_cons_of_mem kv hp) h1
      · rw [List.map_singleton, List.mem_singleton] at h2
        exact (List.nodup_cons.mp hnd).1 (h2 ▸ List.mem_map_of_mem Prod.fst hp)
    rw [ih (σ ++ [kv]) (List.nodup_cons.mp hnd).2 hd2, List.append_assoc]
    rfl

theorem valueOfKey_eq [DecidableEq K] (m : HM K V) (k : K) :
    valueOfKey m k = refLookup (absMap m) k := by
  unfold valueOfKey refLookup absMap
  rw [List.find?_map, Option.map_map]
  rfl

theorem contig_insert {hasher : K → Nat} {cap : Nat} {st : Array (Option K)} {p : Nat} {k : K}
    (hsize : st.size = cap) (hcap : 0 < cap)
    (hcontig : Contig hasher cap st) (hp : p < cap) (hpn : slotAt st p = none)
    (hbefore : ∀ x, x < cap →
      dist cap (homeOf hasher cap k) x < dist cap (homeOf hasher cap k) p →
      (slotAt st x).isSome) :
    Contig hasher cap (st.setD p (some k)) := by
  have hp' : p < st.size := by omega
  intro i k' hi hik j hj hd
  rw [slotAt_setD hp' (some k) i] at hik
  rw [slotAt_setD hp' (some k) j]
  by_cases hip : i = p
  · rw [if_pos hip] at hik
    have hkk : k = k' := by injection hik
    subst hkk
    by_cases hjp : j = p
    · rw [if_pos hjp]
      rfl
    · rw [if_neg hjp]
      rw [hip] at hd
      have hlt : dist cap (homeOf hasher cap k) j < dist cap (homeOf hasher cap k) p :=
        Nat.lt_of_le_of_ne hd (fun heq => hjp (dist_inj (homeOf_lt hcap k) hj hp heq))
      exact hbefore j hj hlt
  · rw [if_neg hip] at hik
    by_cases hjp : j = p
    · rw [if_pos hjp]
      rfl
    · rw [if_neg hjp]
      exact hcontig i k' hi hik j hj hd

theorem slotsNodup_insert {cap : Nat} {st : Array (Option K)} {p : Nat} {k : K}
    (hsize : st.size = cap) (hp : p < cap)
    (hfresh : ∀ i, i < cap → slotAt st i ≠ some k)
    (hsnd : SlotsNodup cap st) :
    SlotsNodup cap (st.setD p (some k)) := by
  have hp' : p < st.size := by omega
  intro i j k' hi hj hik hjk
  rw [slotAt_setD hp' (some k) i] at hik
  rw [slotAt_setD hp' (some k) j] at hjk
  by_cases hip : i = p
  · rw [if_pos hip] at hik
    have hkk : k = k' := by injection hik
    by_cases hjp : j = p
    · rw [hip, hjp]
    · rw [if_neg hjp] at hjk
      rw [← hkk] at hjk
      exact absurd hjk (hfresh j hj)
  · rw [if_neg hip] at hik
    by_cases hjp : j = p
    · rw [if_pos hjp] at hjk
      have hkk : k = k' := by injection hjk
      rw [← hkk] at hik
      exact absurd hik (hfresh i hi)
    · rw [if_neg hjp] at hjk
      exact hsnd i j k' hi hj hik hjk

theorem resizeFold_spec [DecidableEq K] {hasher : K → Nat} {cap : Nat} (hcap : 0 < cap) :
    ∀ (es : List (Entry K V)) (st : Array (Option K)) (acc : List (Entry K V)),
      st.size = cap →
      SlotsNodup cap st →
      Contig hasher cap st →
      (∀ k, (∃ i, i < cap ∧ slotAt st i = some k) ↔ k ∈ acc.map Entry.key) →
      (∀ a ∈ acc, a.pos < cap ∧ slotAt st a.pos = some a.key) →
      ((acc ++ es).map Entry.key).Nodup →
      acc.length + es.length < cap →
      ∃ st' acc', resizeFold hasher cap es st acc acc.length = some (st', acc', acc'.length) ∧
        st'.size = cap ∧
        SlotsNodup cap st' ∧
        Contig hasher cap st' ∧
        (∀ k, (∃ i, i < cap ∧ slotAt st' i = some k) ↔ k ∈ acc'.map Entry.key) ∧
        (∀ a ∈ acc', a.pos < cap ∧ slotAt st' a.pos = some a.key) ∧
        acc'.map Entry.key = (acc ++ es).map Entry.key ∧
        (acc'.map fun a => (a.key, a.value)) = ((acc ++ es).map fun a => (a.key, a.value)) ∧
        acc'.length = acc.length + es.length := by
  intro es
  induction es with
  | nil =>
    intro st acc hsize hsnd hcontig hmem hposc hnd hlen
    exact ⟨st, acc, rfl, hsize, hsnd, hcontig, hmem, hposc, by simp, by simp, by simp⟩
  | cons e es ih =>
    intro st acc hsize hsnd hcontig hmem hposc hnd hlen
    have hnd' := hnd
    rw [List.map_append, List.nodup_append] at hnd'
    obtain ⟨hnd1, hnd2, hdisj⟩ := hnd'
    have hkacc : e.key ∉ acc.map Entry.key := by
      intro hmem2
      exact hdisj hmem2 (by rw [List.map_cons]; exact List.mem_cons_self _ _)
    have hfresh : ∀ i, i < cap → slotAt st i ≠ some e.key := by
      intro i hi hcon
      exact hkacc ((hmem e.key).mp ⟨i, hi, hcon⟩)
    have hemp : ∃ i, i < cap ∧ slotAt st i = none :=
      exists_empty_slot hposc hsnd (fun k h => (hmem k).mp h) (by simp at hlen; omega)
    obtain ⟨p, hfind, hplt, hpn, hbefore⟩ := find_pos_st_of_not_mem hcap hemp hfresh
    have hp' : p < st.size := by omega
    have hii : insert_item hasher cap st acc.length e =
        some (st.setD p (some e.key), { e with pos := p }, acc.length + 1) := by
      unfold insert_item
      split
      next hcon => rw [hfind] at hcon; cases hcon
      next pos hsome =>
        rw [hfind] at hsome
        cases hsome
        split
        next k0 hk0 => rw [hpn] at hk0; cases hk0
        next => rfl
    have hsize1 : (st.setD p (some e.key)).size = cap := by rw [size_setD]; exact hsize
    have hsnd1 := slotsNodup_insert hsize hplt hfresh hsnd
    have hcontig1 := contig_insert hsize hcap hcontig hplt hpn hbefore
    have hmem1 : ∀ k, (∃ i, i < cap ∧ slotAt (st.setD p (some e.key)) i = some k) ↔
        k ∈ (acc ++ [{ e with pos := p }]).map Entry.key := by
      intro k
      rw [List.map_append, List.mem_append]
      constructor
      · rintro ⟨i, hi, hik⟩
        rw [slotAt_setD hp' _ i] at hik
        by_cases hip : i = p
        · rw [if_pos hip] at hik
          have hek : e.key = k := by injection hik
          right
          simp [← hek]
        · rw [if_neg hip] at hik
          exact Or.inl ((hmem k).mp ⟨i, hi, hik⟩)
      · rintro (h1 | h2)
        · obtain ⟨i, hi, hik⟩ := (hmem k).mpr h1
          have hip : i ≠ p := by
            intro heq
            rw [heq, hpn] at hik
            cases hik
          exact ⟨i, hi, by rw [slotAt_setD hp' _ i, if_neg hip]; exact hik⟩
        · simp at h2
          refine ⟨p, hplt, ?_⟩
          rw [slotAt_setD hp' _ p, if_pos rfl, h2]
    have hposc1 : ∀ a ∈ acc ++ [{ e with pos := p }],
        a.pos < cap ∧ slotAt (st.setD p (some e.key)) a.pos = some a.key := by
      intro a ha
      rw [List.mem_append] at ha
      rcases ha with ha | ha
      · obtain ⟨h1, h2⟩ := hposc a ha
        have hap : a.pos ≠ p := by
          intro heq
          rw [heq, hpn] at h2
          cases h2
        exact ⟨h1, by rw [slotAt_setD hp' _ a.pos, if_neg hap]; exact h2⟩
      · rw [List.mem_singleton] at ha
        subst ha
        show p < cap ∧ slotAt (st.setD p (some e.key)) p = some e.key
        refine ⟨hplt, ?_⟩
        rw [slotAt_setD hp' _ p, if_pos rfl]
    have hnd1 : (((acc ++ [{ e with pos := p }]) ++ es).map Entry.key).Nodup := by
      have heq : ((acc ++ [{ e with pos := p }]) ++ es).map Entry.key =
          (acc ++ e :: es).map Entry.key := by
        simp
      rw [heq]
      exact hnd
    obtain ⟨st', acc', hfold, h1, h2, h3, h4, h5, h6, h7, h8⟩ :=
      ih (st.setD p (some e.key)) (acc ++ [{ e with pos := p }]) hsize1 hsnd1 hcontig1
        hmem1 hposc1 hnd1 (by simp at hlen ⊢; omega)
    have hfoldeq : resizeFold hasher cap (e :: es) st acc acc.length =
        resizeFold hasher cap es (st.setD p (some e.key)) (acc ++ [{ e with pos := p }])
          (acc.length + 1) := by
      simp only [resizeFold]
      split
      next hcon => rw [hii] at hcon; cases hcon
      next st2 e2 sz2 hsome =>
        rw [hii] at hsome
        cases hsome
        rfl
    have hlen1 : (acc ++ [{ e with pos := p }]).length = acc.length + 1 := by simp
    refine ⟨st', acc', ?_, h1, h2, h3, h4, h5, ?_, ?_, ?_⟩
    · rw [hfoldeq, ← hlen1]
      exact hfold
    · rw [h6]
      simp
    · rw [h7]
      simp
    · rw [h8]
      simp
      omega

theorem resize_spec [DecidableEq K] (m : HM K V) (newCap : Nat) (hcap' : 0 < newCap)
    (hnd : (m.chain.map Entry.key).Nodup) (hlen : m.chain.length < newCap) :
    ∃ m', resize m newCap = some m' ∧
      m'.hasher = m.hasher ∧ m'.capacity = newCap ∧ m'.size_ = m.chain.length ∧
      m'.storage.size = newCap ∧
      SlotsNodup newCap m'.storage ∧ Contig m.hasher newCap m'.storage ∧
      (∀ k, (∃ i, i < newCap ∧ slotAt m'.storage i = some k) ↔ k ∈ m'.chain.map Entry.key) ∧
      (∀ a ∈ m'.chain, a.pos < newCap ∧ slotAt m'.storage a.pos = some a.key) ∧
      m'.chain.map Entry.key = m.chain.map Entry.key ∧
      (m'.chain.map fun a => (a.key, a.value)) = m.chain.map fun a => (a.key, a.value) := by
  have h0size : (Array.mkArray newCap (none : Option K)).size = newCap :=
    Array.size_mkArray _ _
  have h0snd : SlotsNodup newCap (Array.mkArray newCap (none : Option K)) := by
    intro i j k _ _ hik _
    rw [slotAt_mkArray] at hik
    cases hik
  have h0contig : Contig m.hasher newCap (Array.mkArray newCap (none : Option K)) := by
    intro i k _ hik
    rw [slotAt_mkArray] at hik
    cases hik
  have h0mem : ∀ k,
      (∃ i, i < newCap ∧ slotAt (Array.mkArray newCap (none : Option K)) i = some k) ↔
      k ∈ ([] : List (Entry K V)).map Entry.key := by
    intro k
    simp [slotAt_mkArray]
  have h0posc : ∀ a ∈ ([] : List (Entry K V)),
      a.pos < newCap ∧ slotAt (Array.mkArray newCap (none : Option K)) a.pos = some a.key := by
    intro a ha
    cases ha
  obtain ⟨st', acc', hfold, h1, h2, h3, h4, h5, h6, h7, h8⟩ :=
    resizeFold_spec hcap' m.chain (Array.mkArray newCap none) [] h0size h0snd h0contig
      h0mem h0posc (by simpa using hnd) (by simpa using hlen)
  have hfold0 : resizeFold m.hasher newCap m.chain (Array.mkArray newCap none) [] 0 =
      some (st', acc', acc'.length) := by
    simpa using hfold
  have heq : resize m newCap =
      some { m with capacity := newCap, size_ := acc'.length, storage := st', chain := acc' } := by
    unfold resize
    split
    next hcon => rw [hfold0] at hcon; cases hcon
    next st2 ch2 sz2 hsome =>
      rw [hfold0] at hsome
      cases hsome
      rfl
  refine ⟨_, heq, rfl, rfl, by simpa using h8, by simpa using h1, h2, h3, h4, h5,
    by simpa using h6, by simpa using h7⟩

theorem resize_if_need_spec [DecidableEq K] (m : HM K V)
    (hsize : m.storage.size = m.capacity) (hcap : 0 < m.capacity)
    (hpow : ∃ n, m.capacity = 2 ^ n)
    (hbound : m.size_ * 4 < m.capacity * 6)
    (hlen : m.size_ = m.chain.length)
    (hnd : (m.chain.map Entry.key).Nodup)
    (hmem : ∀ k, (∃ i, i < m.capacity ∧ slotAt m.storage i = some k) ↔ k ∈ m.chain.map Entry.key)
    (hsnd : SlotsNodup m.capacity m.storage)
    (hposc : ∀ a ∈ m.chain, a.pos < m.capacity ∧ slotAt m.storage a.pos = some a.key)
    (hcontig : Contig m.hasher m.capacity m.storage) :
    ∃ m', resize_if_need m = some m' ∧ Wf m' ∧ m'.hasher = m.hasher ∧
      m'.size_ = m.size_ ∧
      absMap m' = absMap m ∧
      m'.chain.map Entry.key = m.chain.map Entry.key ∧
      (m'.capacity = m.capacity ∨ m'.capacity = m.capacity * 2) := by
  unfold resize_if_need
  by_cases htr : m.size_ * 4 ≥ m.capacity * 3
  · rw [if_pos htr]
    obtain ⟨m', hres, hh, hc, hs, hst, hsn, hcg, hm, hp, hk, hkv⟩ :=
      resize_spec m (m.capacity * 2) (by omega) hnd (by omega)
    have hchlen : m'.chain.length = m.chain.length := by
      have := congrArg List.length hkv
      simpa using this
    refine ⟨m', hres, ?_, hh, by omega, ?_, hk, Or.inr hc⟩
    · refine ⟨?_, ?_, ?_, ?_, ?_, ?_, ?_, ?_, ?_, ?_⟩
      · rw [hst, hc]
      · omega
      · obtain ⟨n, hn⟩ := hpow
        exact ⟨n + 1, by rw [hc, hn, pow_succ]⟩
      · rw [hs, hc]
        omega
      · rw [hs, hchlen]
      · rw [hk]
        exact hnd
      · rw [hc]
        exact hm
      · rw [hc]
        exact hsn
      · rw [hc]
        exact hp
      · rw [hh, hc]
        exact hcg
    · unfold absMap
      exact hkv
  · rw [if_neg htr]
    refine ⟨m, rfl, ?_, rfl, rfl, rfl, rfl, Or.inl rfl⟩
    exact ⟨hsize, hcap, hpow, by omega, hlen, hnd, hmem, hsnd, hposc, hcontig⟩

theorem load_step {s c : Nat} (h : s * 4 < c * 3) (hc : 0 < c) : (s + 1) * 4 < c * 6 := by
  omega

theorem load_lt {s c : Nat} (h : s * 4 < c * 3) (hc : 0 < c) : s < c := by
  omega

theorem load_sub_not {s c : Nat} (h : s * 4 < c * 3) : ¬ (s - 1) * 4 ≥ c * 3 := by
  omega

theorem load_sub_lt {s c : Nat} (h : s * 4 < c * 3) : (s - 1) * 4 < c * 3 := by
  omega

theorem wf_empty_slot [DecidableEq K] {m : HM K V} (hwf : Wf m) :
    ∃ i, i < m.capacity ∧ slotAt m.storage i = none := by
  apply exists_empty_slot hwf.hpos hwf.hsnd (fun k h => (hwf.hmem k).mp h)
  have h1 := hwf.hload
  have h2 := hwf.hcap
  have h3 := hwf.hlen
  omega

theorem find_pos_present [DecidableEq K] {m : HM K V} (hwf : Wf m) {k : K} {i : Nat}
    (hi : i < m.capacity) (hik : slotAt m.storage i = some k) :
    find_pos m k = some i :=
  find_pos_st_of_mem hwf.hcap (wf_empty_slot hwf) hwf.hsnd hwf.hcontig hi hik

theorem wf_mem_slot [DecidableEq K] {m : HM K V} (hwf : Wf m) {k : K}
    (h : k ∈ m.chain.map Entry.key) :
    ∃ i, i < m.capacity ∧ slotAt m.storage i = some k :=
  (hwf.hmem k).mpr h

theorem refLookup_absMap_isSome_iff [DecidableEq K] (m : HM K V) (k : K) :
    (refLookup (absMap m) k).isSome ↔ k ∈ m.chain.map Entry.key := by
  rw [refLookup_isSome_iff, absMap_keys]

theorem filter_kv_eq_self [DecidableEq K] {l : List (Entry K V)} {k : K}
    (h : ∀ e ∈ l, e.key ≠ k) :
    ((l.map fun e => (e.key, e.value)).filter fun p => decide (¬ p.1 = k)) =
      l.map fun e => (e.key, e.value) := by
  apply List.filter_eq_self.mpr
  intro a ha
  rw [List.mem_map] at ha
  obtain ⟨e, he, rfl⟩ := ha
  simpa using h e he

theorem insert_absent_core [DecidableEq K] {m : HM K V} (hwf : Wf m) (k : K) (v : V)
    (hpresent : k ∉ m.chain.map Entry.key) :
    ∃ p m', find_pos m k = some p ∧ slotAt m.storage p = none ∧
      resize_if_need { m with storage := m.storage.setD p (some k), chain := m.chain ++ [⟨k, v, p⟩], size_ := m.size_ + 1 } = some m' ∧
      Wf m' ∧ m'.hasher = m.hasher ∧ m'.size_ = m.size_ + 1 ∧
      absMap m' = absMap m ++ [(k, v)] ∧
      (m'.capacity = m.capacity ∨ m'.capacity = m.capacity * 2) := by
  have hfresh : ∀ i, i < m.capacity → slotAt m.storage i ≠ some k := by
    intro i hi hcon
    exact hpresent ((hwf.hmem k).mp ⟨i, hi, hcon⟩)
  have hspec : ∃ p, find_pos m k = some p ∧ p < m.capacity ∧
      slotAt m.storage p = none ∧
      ∀ x, x < m.capacity →
        dist m.capacity (homeOf m.hasher m.capacity k) x <
          dist m.capacity (homeOf m.hasher m.capacity k) p →
        (slotAt m.storage x).isSome :=
    find_pos_st_of_not_mem hwf.hcap (wf_empty_slot hwf) hfresh
  obtain ⟨p, hfind, hplt, hpn, hbefore⟩ := hspec
  have hp' : p < m.storage.size := by rw [hwf.hsize]; exact hplt
  set m1 : HM K V := { m with storage := m.storage.setD p (some k), chain := m.chain ++ [⟨k, v, p⟩], size_ := m.size_ + 1 } with hm1
  have h1size : m1.storage.size = m1.capacity := by
    show (m.storage.setD p (some k)).size = m.capacity
    rw [size_setD, hwf.hsize]
  have h1bound : m1.size_ * 4 < m1.capacity * 6 := load_step hwf.hload hwf.hcap
  have h1len : m1.size_ = m1.chain.length := by
    show m.size_ + 1 = (m.chain ++ [(⟨k, v, p⟩ : Entry K V)]).length
    rw [hwf.hlen]
    simp
  have h1nd : (m1.chain.map Entry.key).Nodup := by
    show ((m.chain ++ [(⟨k, v, p⟩ : Entry K V)]).map Entry.key).Nodup
    rw [List.map_append]
    simp [List.nodup_append, hwf.hnodup, hpresent]
  have h1mem : ∀ k', (∃ i, i < m1.capacity ∧ slotAt m1.storage i = some k') ↔
      k' ∈ m1.chain.map Entry.key := by
    intro k'
    show (∃ i, i < m.capacity ∧ slotAt (m.storage.setD p (some k)) i = some k') ↔
      k' ∈ (m.chain ++ [(⟨k, v, p⟩ : Entry K V)]).map Entry.key
    rw [List.map_append, List.mem_append]
    constructor
    · rintro ⟨i, hi, hik⟩
      rw [slotAt_setD hp' _ i] at hik
      by_cases hip : i = p
      · rw [if_pos hip] at hik
        have hek : k = k' := by injection hik
        right
        simp [← hek]
      · rw [if_neg hip] at hik
        exact Or.inl ((hwf.hmem k').mp ⟨i, hi, hik⟩)
    · rintro (h1 | h2)
      · obtain ⟨i, hi, hik⟩ := (hwf.hmem k').mpr h1
        have hip : i ≠ p := by
          intro heq
          rw [heq, hpn] at hik
          cases hik
        exact ⟨i, hi, by rw [slotAt_setD hp' _ i, if_neg hip]; exact hik⟩
      · simp at h2
        refine ⟨p, hplt, ?_⟩
        rw [slotAt_setD hp' _ p, if_pos rfl, h2]
  have h1snd : SlotsNodup m1.capacity m1.storage :=
    slotsNodup_insert hwf.hsize hplt hfresh hwf.hsnd
  have h1posc : ∀ a ∈ m1.chain, a.pos < m1.capacity ∧
      slotAt m1.storage a.pos = some a.key := by
    intro a ha
    rw [show m1.chain = m.chain ++ [(⟨k, v, p⟩ : Entry K V)] from rfl,
      List.mem_append] at ha
    rcases ha with ha | ha
    · obtain ⟨h1, h2⟩ := hwf.hpos a ha
      have hap : a.pos ≠ p := by
        intro heq
        rw [heq, hpn] at h2
        cases h2
      exact ⟨h1, by
        show slotAt (m.storage.setD p (some k)) a.pos = some a.key
        rw [slotAt_setD hp' _ a.pos, if_neg hap]; exact h2⟩
    · rw [List.mem_singleton] at ha
      subst ha
      show p < m.capacity ∧ slotAt (m.storage.setD p (some k)) p = some k
      refine ⟨hplt, ?_⟩
      rw [slotAt_setD hp' _ p, if_pos rfl]
  have h1contig : Contig m1.hasher m1.capacity m1.storage :=
    contig_insert hwf.hsize hwf.hcap hwf.hcontig hplt hpn hbefore
  obtain ⟨m', hrin, hwf', hh', hs', habs', hkeys', hcapor⟩ :=
    resize_if_need_spec m1 h1size hwf.hcap hwf.hpow h1bound h1len h1nd h1mem h1snd
      h1posc h1contig
  have habs1 : absMap m1 = absMap m ++ [(k, v)] := by
    show (m.chain ++ [(⟨k, v, p⟩ : Entry K V)]).map _ = _
    rw [List.map_append]
    rfl
  exact ⟨p, m', hfind, hpn, hrin, hwf', hh', hs', by rw [habs', habs1], hcapor⟩

theorem insert_spec [DecidableEq K] {m : HM K V} (hwf : Wf m) (kv : K × V) :
    ∃ m', insert m kv = some m' ∧ Wf m' ∧ m'.hasher = m.hasher ∧
      absMap m' = refInsert (absMap m) kv ∧
      (m'.capacity = m.capacity ∨ m'.capacity = m.capacity * 2) ∧
      ((refLookup (absMap m) kv.1).isSome → m' = m) ∧
      (refLookup (absMap m) kv.1 = none → m'.size_ = m.size_ + 1) := by
  by_cases hpresent : kv.1 ∈ m.chain.map Entry.key
  · obtain ⟨i, hi, hik⟩ := wf_mem_slot hwf hpresent
    have hfp : find_pos m kv.1 = some i := find_pos_present hwf hi hik
    have heq : insert m kv = some m := by
      unfold insert
      split
      next hcon => rw [hfp] at hcon; cases hcon
      next pos hsome =>
        rw [hfp] at hsome
        cases hsome
        split
        next => rfl
        next hk0 => rw [hik] at hk0; cases hk0
    have hsm : (refLookup (absMap m) kv.1).isSome := by
      rw [refLookup_absMap_isSome_iff]
      exact hpresent
    refine ⟨m, heq, hwf, rfl, ?_, Or.inl rfl, fun _ => rfl, ?_⟩
    · rw [refInsert_of_isSome hsm]
    · intro hn
      rw [hn] at hsm
      cases hsm
  · have hnone : refLookup (absMap m) kv.1 = none := by
      rw [← Option.not_isSome_iff_eq_none, refLookup_absMap_isSome_iff]
      exact hpresent
    obtain ⟨p, m', hfind, hpn, hrin, hwf', hh', hs', habs', hcapor⟩ :=
      insert_absent_core hwf kv.1 kv.2 hpresent
    have heq : insert m kv = some m' := by
      unfold insert
      split
      next hcon => rw [hfind] at hcon; cases hcon
      next pos hsome =>
        rw [hfind] at hsome
        cases hsome
        split
        next hk0 => rw [hpn] at hk0; cases hk0
        next => exact hrin
    refine ⟨m', heq, hwf', hh', ?_, hcapor, ?_, fun _ => hs'⟩
    · rw [habs', refInsert_of_none hnone, Prod.mk.eta]
    · intro hcon
      rw [hnone] at hcon
      cases hcon

theorem erase_spec [DecidableEq K] {m : HM K V} (hwf : Wf m) (k : K) :
    ∃ m', erase m k = some m' ∧ Wf m' ∧ m'.hasher = m.hasher ∧
      m'.capacity = m.capacity ∧
      absMap m' = refErase (absMap m) k ∧
      ((refLookup (absMap m) k).isSome → m'.size_ = m.size_ - 1) ∧
      (refLookup (absMap m) k = none → m' = m) := by
  by_cases hpresent : k ∈ m.chain.map Entry.key
  case neg =>
    have hnone : refLookup (absMap m) k = none := by
      rw [← Option.not_isSome_iff_eq_none, refLookup_absMap_isSome_iff]
      exact hpresent
    have hfresh : ∀ i, i < m.capacity → slotAt m.storage i ≠ some k := by
      intro i hi hcon
      exact hpresent ((hwf.hmem k).mp ⟨i, hi, hcon⟩)
    have hspec : ∃ p, find_pos m k = some p ∧ p < m.capacity ∧
        slotAt m.storage p = none ∧
        ∀ x, x < m.capacity →
          dist m.capacity (homeOf m.hasher m.capacity k) x <
            dist m.capacity (homeOf m.hasher m.capacity k) p →
          (slotAt m.storage x).isSome :=
      find_pos_st_of_not_mem hwf.hcap (wf_empty_slot hwf) hfresh
    obtain ⟨p, hfind, hplt, hpn, _⟩ := hspec
    have heq : erase m k = some m := by
      unfold erase
      split
      next hcon => rw [hfind] at hcon; cases hcon
      next pos hsome =>
        rw [hfind] at hsome
        cases hsome
        split
        next => rfl
        next k0 hk0 => rw [hpn] at hk0; cases hk0
    have hfe : refErase (absMap m) k = absMap m := by
      apply List.filter_eq_self.mpr
      intro a ha
      rw [absMap, List.mem_map] at ha
      obtain ⟨e, he, rfl⟩ := ha
      have hne : e.key ≠ k := fun hc => hpresent (hc ▸ List.mem_map_of_mem Entry.key he)
      simpa using hne
    refine ⟨m, heq, hwf, rfl, rfl, hfe.symm, ?_, fun _ => rfl⟩
    intro h
    rw [hnone] at h
    cases h
  case pos =>
    obtain ⟨i, hilt, hik⟩ := wf_mem_slot hwf hpresent
    have hfp : find_pos m k = some i := find_pos_present hwf hilt hik
    obtain ⟨e0, he0, he0k⟩ := List.mem_map.mp hpresent
    have hpe0 : (fun e : Entry K V => decide (e.key = k)) e0 = true := by simp [he0k]
    obtain ⟨a0, l1, l2, hl1, hpa, hdecomp, herase⟩ :=
      @List.exists_of_eraseP (Entry K V) (fun e => decide (e.key = k)) m.chain e0 he0 hpe0
    have hak : a0.key = k := by simpa using hpa
    have hndk := hwf.hnodup
    rw [hdecomp, List.map_append, List.map_cons, List.nodup_append] at hndk
    obtain ⟨hnd1, hnd2, hdisj⟩ := hndk
    have hkl2 : k ∉ l2.map Entry.key := by
      have h := (List.nodup_cons.mp hnd2).1
      rw [hak] at h
      exact h
    have hkl1 : k ∉ l1.map Entry.key := by
      intro hc
      exact hdisj hc (by rw [← hak] at *; exact List.mem_cons_self _ _)
    have hsz : m.size_ = l1.length + l2.length + 1 := by
      rw [hwf.hlen, hdecomp]
      simp
      omega
    have hi' : i < m.storage.size := by rw [hwf.hsize]; exact hilt
    have hslot1 : ∀ j, slotAt (m.storage.setD i none) j =
        if j = i then none else slotAt m.storage j :=
      fun j => slotAt_setD hi' none j
    have h1size : (m.storage.setD i none).size = m.capacity := by
      rw [size_setD, hwf.hsize]
    have h1hole : slotAt (m.storage.setD i none) i = none := by
      rw [hslot1 i, if_pos rfl]
    have h1ce : ContigExcept m.hasher m.capacity (m.storage.setD i none) i := by
      intro x kx hx hxk j hj hd hji
      rw [hslot1 x] at hxk
      by_cases hxi : x = i
      · rw [if_pos hxi] at hxk
        cases hxk
      · rw [if_neg hxi] at hxk
        rw [hslot1 j, if_neg hji]
        exact hwf.hcontig x kx hx hxk j hj hd
    have h1snd : SlotsNodup m.capacity (m.storage.setD i none) := by
      intro x y kx hx hy hxk hyk
      rw [hslot1 x] at hxk
      rw [hslot1 y] at hyk
      by_cases hxi : x = i
      · rw [if_pos hxi] at hxk
        cases hxk
      · rw [if_neg hxi] at hxk
        by_cases hyi : y = i
        · rw [if_pos hyi] at hyk
          cases hyk
        · rw [if_neg hyi] at hyk
          exact hwf.hsnd x y kx hx hy hxk hyk
    have hch1keys : (m.chain.eraseP fun e => decide (e.key = k)).map Entry.key =
        l1.map Entry.key ++ l2.map Entry.key := by
      rw [herase, List.map_append]
    have h1mem : ∀ k', (∃ j, j < m.capacity ∧ slotAt (m.storage.setD i none) j = some k') ↔
        k' ∈ (m.chain.eraseP fun e => decide (e.key = k)).map Entry.key := by
      intro k'
      rw [hch1keys]
      constructor
      · rintro ⟨j, hj, hjk⟩
        rw [hslot1 j] at hjk
        by_cases hji : j = i
        · rw [if_pos hji] at hjk
          cases hjk
        · rw [if_neg hji] at hjk
          have hkk' : k' ≠ k := by
            rintro rfl
            exact hji (hwf.hsnd j i k' hj hilt hjk hik)
          have hmem2 := (hwf.hmem k').mp ⟨j, hj, hjk⟩
          rw [hdecomp, List.map_append, List.map_cons] at hmem2
          rw [List.mem_append] at hmem2 ⊢
          rcases hmem2 with h | h
          · exact Or.inl h
          · rw [List.mem_cons] at h
            rcases h with h | h
            · rw [hak] at h
              exact absurd h hkk'
            · exact Or.inr h
      · intro hmem2
        have hkk' : k' ≠ k := by
          rintro rfl
          rw [List.mem_append] at hmem2
          rcases hmem2 with h | h
          · exact hkl1 h
          · exact hkl2 h
        have hin : k' ∈ m.chain.map Entry.key := by
          rw [hdecomp, List.map_append, List.map_cons]
          rw [List.mem_append] at hmem2 ⊢
          rcases hmem2 with h | h
          · exact Or.inl h
          · exact Or.inr (List.mem_cons_of_mem _ h)
        obtain ⟨j, hj, hjk⟩ := (hwf.hmem k').mpr hin
        have hji : j ≠ i := by
          rintro rfl
          rw [hik] at hjk
          have h := Option.some.inj hjk
          exact hkk' h.symm
        exact ⟨j, hj, by rw [hslot1 j, if_neg hji]; exact hjk⟩
    have h1posc : ∀ a ∈ (m.chain.eraseP fun e => decide (e.key = k)),
        a.pos < m.capacity ∧ slotAt (m.storage.setD i none) a.pos = some a.key := by
      intro a ha
      rw [herase] at ha
      have hachain : a ∈ m.chain := by
        rw [hdecomp]
        rw [List.mem_append] at ha ⊢
        rcases ha with h | h
        · exact Or.inl h
        · exact Or.inr (List.mem_cons_of_mem _ h)
      obtain ⟨h1, h2⟩ := hwf.hpos a hachain
      have hank : a.key ≠ k := by
        intro hc
        rw [List.mem_append] at ha
        rcases ha with h | h
        · exact hkl1 (by rw [← hc]; exact List.mem_map_of_mem Entry.key h)
        · exact hkl2 (by rw [← hc]; exact List.mem_map_of_mem Entry.key h)
      have hai : a.pos ≠ i := by
        intro hc
        rw [hc, hik] at h2
        have h3 := Option.some.inj h2
        exact hank h3.symm
      exact ⟨h1, by rw [hslot1 a.pos, if_neg hai]; exact h2⟩
    have hc2 : (m.chain.eraseP fun e => decide (e.key = k)).length =
        l1.length + l2.length := by
      rw [herase]
      simp
    have hslt : m.size_ < m.capacity := load_lt hwf.hload hwf.hcap
    have hlen2 : (m.chain.eraseP fun e => decide (e.key = k)).length + 1 < m.capacity := by
      omega
    obtain ⟨e2, he2lt, he2ne, he2none⟩ :=
      exists_empty_slot_ne h1posc h1snd (fun k' h => (h1mem k').mp h) hilt hlen2
    obtain ⟨st', ch', hloop, hL1, hL2, hL3, hL4, hL5, hL6, hL7⟩ :=
      eraseLoop_spec m.capacity (m.storage.setD i none)
        (m.chain.eraseP fun e => decide (e.key = k)) i e2
        h1size hwf.hcap hilt h1hole h1ce h1snd h1mem h1posc he2lt he2ne he2none
        (dist_lt hwf.hcap hilt he2lt)
    set m2 : HM K V := { m with storage := st', chain := ch', size_ := m.size_ - 1 } with hm2
    have hreq : resize_if_need m2 = some m2 := by
      unfold resize_if_need
      rw [if_neg (load_sub_not hwf.hload)]
    have heq : erase m k = some m2 := by
      unfold erase
      split
      next hcon => rw [hfp] at hcon; cases hcon
      next pos hsome =>
        rw [hfp] at hsome
        cases hsome
        split
        next hk0 => rw [hik] at hk0; cases hk0
        next k0 hk0 =>
          split
          next hcon2 => rw [hloop] at hcon2; cases hcon2
          next st2 ch2 hsome2 =>
            rw [hloop] at hsome2
            cases hsome2
            exact hreq
    have hc1 : ch'.length = (m.chain.eraseP fun e => decide (e.key = k)).length := by
      have h := congrArg List.length hL7
      simpa using h
    have hwf2 : Wf m2 := by
      refine ⟨hL1, hwf.hcap, hwf.hpow, load_sub_lt hwf.hload, ?_, ?_, hL4, hL3, hL5, hL2⟩
      · show m.size_ - 1 = ch'.length
        omega
      · show (ch'.map Entry.key).Nodup
        rw [hL6, hch1keys]
        rw [List.nodup_append]
        exact ⟨hnd1, (List.nodup_cons.mp hnd2).2,
          fun a ha hb => hdisj ha (List.mem_cons_of_mem _ hb)⟩
    have habs2 : absMap m2 =
        (l1.map fun e => (e.key, e.value)) ++ (l2.map fun e => (e.key, e.value)) := by
      show ch'.map _ = _
      rw [hL7, herase, List.map_append]
    have habsm : absMap m = (l1.map fun e => (e.key, e.value)) ++
        ((a0.key, a0.value) :: l2.map fun e => (e.key, e.value)) := by
      rw [absMap, hdecomp, List.map_append, List.map_cons]
    have hrefe : refErase (absMap m) k =
        (l1.map fun e => (e.key, e.value)) ++ (l2.map fun e => (e.key, e.value)) := by
      rw [refErase, habsm, List.filter_append, List.filter_cons]
      rw [filter_kv_eq_self (fun e he hc => hl1 e he (by simp [hc]))]
      rw [filter_kv_eq_self (fun e he hc => hkl2 (by rw [← hc]; exact List.mem_map_of_mem Entry.key he))]
      rw [if_neg (by simp [hak])]
    refine ⟨m2, heq, hwf2, rfl, rfl, ?_, fun _ => rfl, ?_⟩
    · rw [habs2, hrefe]
    · intro h
      have hsm : (refLookup (absMap m) k).isSome := (refLookup_absMap_isSome_iff m k).mpr hpresent
      rw [h] at hsm
      cases hsm

theorem opIndex_spec [DecidableEq K] [Inhabited V] {m : HM K V} (hwf : Wf m) (k : K) :
    ∃ m' v, opIndex m k = some (m', v) ∧ Wf m' ∧ m'.hasher = m.hasher ∧
      absMap m' = refIndex (absMap m) k ∧
      (∀ v0, refLookup (absMap m) k = some v0 → m' = m ∧ v = v0) ∧
      (refLookup (absMap m) k = none →
        m'.size_ = m.size_ + 1 ∧ v = default ∧ absMap m' = absMap m ++ [(k, default)]) := by
  by_cases hpresent : k ∈ m.chain.map Entry.key
  · obtain ⟨i, hi, hik⟩ := wf_mem_slot hwf hpresent
    have hfp : find_pos m k = some i := find_pos_present hwf hi hik
    have hsm : (refLookup (absMap m) k).isSome :=
      (refLookup_absMap_isSome_iff m k).mpr hpresent
    have heq : opIndex m k = some (m, (valueOfKey m k).getD default) := by
      unfold opIndex
      split
      next hcon => rw [hfp] at hcon; cases hcon
      next pos hsome =>
        rw [hfp] at hsome
        cases hsome
        split
        next k0 hk0 =>
          rw [hik] at hk0
          cases hk0
          rfl
        next hk0 => rw [hik] at hk0; cases hk0
    refine ⟨m, _, heq, hwf, rfl, ?_, ?_, ?_⟩
    · rw [refIndex, if_pos hsm]
    · intro v1 hv1
      refine ⟨rfl, ?_⟩
      rw [valueOfKey_eq, hv1]
      rfl
    · intro hn
      rw [hn] at hsm
      cases hsm
  · have hnone : refLookup (absMap m) k = none := by
      rw [← Option.not_isSome_iff_eq_none, refLookup_absMap_isSome_iff]
      exact hpresent
    obtain ⟨p, m2, hfind, hpn, hrin, hwf2, hh2, hs2, habs2, hcap2⟩ :=
      insert_absent_core hwf k default hpresent
    have hk2 : k ∈ m2.chain.map Entry.key := by
      rw [← absMap_keys, habs2]
      simp
    obtain ⟨i2, hi2, hik2⟩ := wf_mem_slot hwf2 hk2
    have hfp2 : find_pos m2 k = some i2 := find_pos_present hwf2 hi2 hik2
    have hval : (valueOfKey m2 k).getD default = default := by
      rw [valueOfKey_eq, habs2, refLookup_append, hnone, refLookup_cons]
      simp
    have heq : opIndex m k = some (m2, (valueOfKey m2 k).getD default) := by
      unfold opIndex
      split
      next hcon => rw [hfind] at hcon; cases hcon
      next pos hsome =>
        rw [hfind] at hsome
        cases hsome
        split
        next k0 hk0 => rw [hpn] at hk0; cases hk0
        next hk0 =>
          split
          next hcon2 => rw [hrin] at hcon2; cases hcon2
          next m2x hsome2 =>
            rw [hrin] at hsome2
            cases hsome2
            split
            next hcon3 => rw [hfp2] at hcon3; cases hcon3
            next pos2 hsome3 =>
              rw [hfp2] at hsome3
              cases hsome3
              split
              next hcon4 => rw [hik2] at hcon4; cases hcon4
              next k4 hk4 =>
                rw [hik2] at hk4
                cases hk4
                rfl
    refine ⟨m2, _, heq, hwf2, hh2, ?_, ?_, ?_⟩
    · rw [refIndex, if_neg (by simp [hnone])]
      exact habs2
    · intro v1 hv1
      rw [hnone] at hv1
      cases hv1
    · intro _
      exact ⟨hs2, hval, habs2⟩

theorem setD_oob {st : Array (Option K)} {p : Nat} (h : st.size ≤ p) (v : Option K) :
    st.setD p v = st := by
  unfold Array.setD
  rw [dif_neg (by omega)]

theorem clear_fold_size : ∀ (ch : List (Entry K V)) (st : Array (Option K)),
    (ch.foldl (fun st e => st.setD e.pos none) st).size = st.size := by
  intro ch
  induction ch with
  | nil => intro st; rfl
  | cons e ch ih =>
    intro st
    show (ch.foldl _ (st.setD e.pos none)).size = st.size
    rw [ih (st.setD e.pos none), size_setD]

theorem clear_fold_none : ∀ (ch : List (Entry K V)) (st : Array (Option K)) (i : Nat),
    (∀ j, j < st.size → slotAt st j ≠ none → ∃ e ∈ ch, e.pos = j) →
    slotAt (ch.foldl (fun st e => st.setD e.pos none) st) i = none := by
  intro ch
  induction ch with
  | nil =>
    intro st i h
    show slotAt st i = none
    by_cases hi : i < st.size
    · by_contra hcon
      obtain ⟨e, he, _⟩ := h i hi hcon
      cases he
    · exact slotAt_oob (by omega)
  | cons e ch ih =>
    intro st i h
    show slotAt (ch.foldl _ (st.setD e.pos none)) i = none
    apply ih (st.setD e.pos none) i
    intro j hj hne
    rw [size_setD] at hj
    by_cases hep : e.pos < st.size
    · rw [slotAt_setD hep none j] at hne
      by_cases hje : j = e.pos
      · rw [if_pos hje] at hne
        exact absurd rfl hne
      · rw [if_neg hje] at hne
        obtain ⟨e', he', hpe'⟩ := h j hj hne
        rcases List.mem_cons.mp he' with rfl | he'
        · exact absurd hpe'.symm hje
        · exact ⟨e', he', hpe'⟩
    · rw [setD_oob (by omega) none] at hne
      obtain ⟨e', he', hpe'⟩ := h j hj hne
      rcases List.mem_cons.mp he' with rfl | he'
      · omega
      · exact ⟨e', he', hpe'⟩

theorem clear_spec [DecidableEq K] {m : HM K V} (hwf : Wf m) :
    Wf (clear m) ∧ absMap (clear m) = [] ∧ (clear m).hasher = m.hasher ∧
      (clear m).capacity = m.capacity ∧ (clear m).size_ = 0 := by
  have hall : ∀ i, slotAt ((clear m).storage) i = none := by
    intro i
    show slotAt (m.chain.foldl (fun st e => st.setD e.pos none) m.storage) i = none
    apply clear_fold_none
    intro j hj hne
    cases hs : slotAt m.storage j with
    | none => exact absurd hs hne
    | some k2 =>
      have hj' : j < m.capacity := by rw [← hwf.hsize]; exact hj
      have hkch := (hwf.hmem k2).mp ⟨j, hj', hs⟩
      obtain ⟨e, he, hek⟩ := List.mem_map.mp hkch
      obtain ⟨hep, hes⟩ := hwf.hpos e he
      rw [hek] at hes
      exact ⟨e, he, hwf.hsnd e.pos j k2 hep hj' hes hs⟩
  have hsize' : (clear m).storage.size = m.capacity := by
    show (m.chain.foldl _ m.storage).size = m.capacity
    rw [clear_fold_size, hwf.hsize]
  refine ⟨⟨hsize', hwf.hcap, hwf.hpow, ?_, rfl,
    by show (([] : List (Entry K V)).map Entry.key).Nodup; simp, ?_, ?_, ?_, ?_⟩,
    rfl, rfl, rfl, rfl⟩
  · show 0 * 4 < m.capacity * 3
    have h := hwf.hcap
    omega
  · intro k2
    constructor
    · rintro ⟨i, _, hik⟩
      rw [hall i] at hik
      cases hik
    · intro h
      cases h
  · intro i j k2 _ _ hik _
    rw [hall i] at hik
    cases hik
  · intro a ha
    cases ha
  · intro i k2 _ hik
    rw [hall i] at hik
    cases hik

theorem find_spec [DecidableEq K] {m : HM K V} (hwf : Wf m) (k : K) :
    (k ∈ m.chain.map Entry.key → find m k = some (some k)) ∧
    (k ∉ m.chain.map Entry.key → find m k = some none) := by
  constructor
  · intro hp
    obtain ⟨i, hi, hik⟩ := wf_mem_slot hwf hp
    have hfp := find_pos_present hwf hi hik
    unfold find
    rw [hfp]
    show some (slotAt m.storage i) = some (some k)
    rw [hik]
  · intro hab
    have hfresh : ∀ i, i < m.capacity → slotAt m.storage i ≠ some k :=
      fun i hi hcon => hab ((hwf.hmem k).mp ⟨i, hi, hcon⟩)
    have hspec : ∃ p, find_pos m k = some p ∧ p < m.capacity ∧
        slotAt m.storage p = none ∧
        ∀ x, x < m.capacity →
          dist m.capacity (homeOf m.hasher m.capacity k) x <
            dist m.capacity (homeOf m.hasher m.capacity k) p →
          (slotAt m.storage x).isSome :=
      find_pos_st_of_not_mem hwf.hcap (wf_empty_slot hwf) hfresh
    obtain ⟨p, hfind, _, hpn, _⟩ := hspec
    unfold find
    rw [hfind]
    show some (slotAt m.storage p) = some none
    rw [hpn]

theorem at_spec [DecidableEq K] [Inhabited V] {m : HM K V} (hwf : Wf m) (k : K) :
    (∀ v, refLookup (absMap m) k = some v → hm_at m k = some (Except.ok v)) ∧
    (refLookup (absMap m) k = none → hm_at m k = some (Except.error ())) := by
  constructor
  · intro v hv
    have hp : k ∈ m.chain.map Entry.key := by
      rw [← refLookup_absMap_isSome_iff, hv]
      rfl
    obtain ⟨i, hi, hik⟩ := wf_mem_slot hwf hp
    have hfp := find_pos_present hwf hi hik
    unfold hm_at
    rw [hfp]
    show some (match slotAt m.storage i with
      | none => Except.error ()
      | some k' => Except.ok ((valueOfKey m k').getD default)) = some (Except.ok v)
    rw [hik]
    show some (Except.ok ((valueOfKey m k).getD default)) = some (Except.ok v)
    rw [valueOfKey_eq, hv]
    rfl
  · intro hn
    have hab : k ∉ m.chain.map Entry.key := by
      rw [← refLookup_absMap_isSome_iff, hn]
      simp
    have hfresh : ∀ i, i < m.capacity → slotAt m.storage i ≠ some k :=
      fun i hi hcon => hab ((hwf.hmem k).mp ⟨i, hi, hcon⟩)
    have hspec : ∃ p, find_pos m k = some p ∧ p < m.capacity ∧
        slotAt m.storage p = none ∧
        ∀ x, x < m.capacity →
          dist m.capacity (homeOf m.hasher m.capacity k) x <
            dist m.capacity (homeOf m.hasher m.capacity k) p →
          (slotAt m.storage x).isSome :=
      find_pos_st_of_not_mem hwf.hcap (wf_empty_slot hwf) hfresh
    obtain ⟨p, hfind, _, hpn, _⟩ := hspec
    unfold hm_at
    rw [hfind]
    show some (match slotAt m.storage p with
      | none => Except.error ()
      | some k' => Except.ok ((valueOfKey m k').getD default)) = some (Except.error ())
    rw [hpn]

theorem wf_init (hasher : K → Nat) : Wf (init hasher : HM K V) := by
  refine ⟨?_, ?_, ⟨0, rfl⟩, ?_, rfl,
    by show (([] : List (Entry K V)).map Entry.key).Nodup; simp, ?_, ?_, ?_, ?_⟩
  · show (Array.mkArray 1 (none : Option K)).size = 1
    simp
  · show 0 < 1
    omega
  · show 0 * 4 < 1 * 3
    omega
  · intro k
    constructor
    · rintro ⟨i, hi, hik⟩
      have hik' : slotAt (Array.mkArray 1 (none : Option K)) i = some k := hik
      rw [slotAt_mkArray] at hik'
      cases hik'
    · intro h
      cases h
  · intro i j k _ _ hik _
    have hik' : slotAt (Array.mkArray 1 (none : Option K)) i = some k := hik
    rw [slotAt_mkArray] at hik'
    cases hik'
  · intro a ha
    cases ha
  · intro i k _ hik
    have hik' : slotAt (Array.mkArray 1 (none : Option K)) i = some k := hik
    rw [slotAt_mkArray] at hik'
    cases hik'

theorem wf_delete_all (m : HM K V) : Wf (delete_all m) := by
  have h : delete_all m = init m.hasher := rfl
  rw [h]
  exact wf_init m.hasher

theorem step_spec [DecidableEq K] [Inhabited V] {m : HM K V} (hwf : Wf m) (op : Op K V) :
    ∃ m', step m op = some m' ∧ Wf m' ∧ m'.hasher = m.hasher ∧
      absMap m' = refStep (absMap m) op := by
  cases op with
  | ins kv =>
    obtain ⟨m', h1, h2, h3, h4, _⟩ := insert_spec hwf kv
    exact ⟨m', h1, h2, h3, h4⟩
  | ers k =>
    obtain ⟨m', h1, h2, h3, _, h5, _⟩ := erase_spec hwf k
    exact ⟨m', h1, h2, h3, h5⟩
  | idx k =>
    obtain ⟨m', v, h1, h2, h3, h4, _⟩ := opIndex_spec hwf k
    refine ⟨m', ?_, h2, h3, h4⟩
    show (opIndex m k).map Prod.fst = some m'
    rw [h1]
    rfl
  | clr =>
    obtain ⟨h1, h2, h3, _, _⟩ := clear_spec hwf
    exact ⟨clear m, rfl, h1, h3, h2⟩

theorem run_spec [DecidableEq K] [Inhabited V] :
    ∀ (ops : List (Op K V)) (m : HM K V), Wf m →
      ∃ m', run m ops = some m' ∧ Wf m' ∧ m'.hasher = m.hasher ∧
        absMap m' = refRun (absMap m) ops := by
  intro ops
  induction ops with
  | nil => intro m hwf; exact ⟨m, rfl, hwf, rfl, rfl⟩
  | cons op ops ih =>
    intro m hwf
    obtain ⟨m1, h1, h2, h3, h4⟩ := step_spec hwf op
    obtain ⟨m', k1, k2, k3, k4⟩ := ih m1 h2
    refine ⟨m', ?_, k2, by rw [k3, h3], ?_⟩
    · show (match step m op with
        | none => none
        | some m' => run m' ops) = some m'
      rw [h1]
      exact k1
    · rw [k4, h4]
      rfl

theorem insertList_spec [DecidableEq K] :
    ∀ (ps : List (K × V)) (m : HM K V), Wf m →
      ∃ m', insertList m ps = some m' ∧ Wf m' ∧ m'.hasher = m.hasher ∧
        absMap m' = refInsertList (absMap m) ps := by
  intro ps
  induction ps with
  | nil => intro m hwf; exact ⟨m, rfl, hwf, rfl, rfl⟩
  | cons kv ps ih =>
    intro m hwf
    obtain ⟨m1, h1, h2, h3, h4, _⟩ := insert_spec hwf kv
    obtain ⟨m', k1, k2, k3, k4⟩ := ih m1 h2
    refine ⟨m', ?_, k2, by rw [k3, h3], ?_⟩
    · show (match insert m kv with
        | none => none
        | some m' => insertList m' ps) = some m'
      rw [h1]
      exact k1
    · rw [k4, h4]
      rfl

theorem refInsertList_length [DecidableEq K] (ps : List (K × V)) :
    (refInsertList [] ps).length = (ps.map Prod.fst).dedup.length := by
  have hnd : ((refInsertList ([] : List (K × V)) ps).map Prod.fst).Nodup :=
    refInsertList_nodup ps [] (by simp)
  have h1 : (refInsertList ([] : List (K × V)) ps).length =
      ((refInsertList ([] : List (K × V)) ps).map Prod.fst).length :=
    (List.length_map _ _).symm
  rw [h1, ← List.toFinset_card_of_nodup hnd, refInsertList_keys_toFinset ps [],
    ← List.card_toFinset]
  simp

theorem refErase_lookup [DecidableEq K] (σ : List (K × V)) (k : K) :
    refLookup (refErase σ k) k = none := by
  rw [← Option.not_isSome_iff_eq_none, refLookup_isSome_iff]
  intro h
  rw [List.mem_map] at h
  obtain ⟨p, hp, hpk⟩ := h
  rw [refErase, List.mem_filter] at hp
  have h2 := hp.2
  simp at h2
  exact h2 hpk

/-- C1: after inserting a list of key/value pairs in order into a fresh
table, `size()` equals the number of distinct keys of the list, the
stored value of each key is the value of that key's first occurrence in
the list, and inserting an already-present key is a no-op that leaves the
table state unchanged. -/
theorem insert_no_overwrite_spec [DecidableEq K] (hasher : K → Nat) (ps : List (K × V)) :
    ∃ m, insertList (init hasher) ps = some m ∧
      m.size_ = (ps.map Prod.fst).dedup.length ∧
      (∀ k, refLookup (absMap m) k = refLookup ps k) ∧
      (∀ k v', (refLookup (absMap m) k).isSome → insert m (k, v') = some m) := by
  obtain ⟨m, h1, hwf, h3, h4⟩ := insertList_spec ps (init hasher) (wf_init hasher)
  have habs : absMap m = refInsertList [] ps := h4
  refine ⟨m, h1, ?_, ?_, ?_⟩
  · rw [hwf.hlen]
    have hlm : m.chain.length = (absMap m).length := by
      rw [absMap]
      simp
    rw [hlm, habs, refInsertList_length]
  · intro k
    rw [habs]
    exact refInsertList_lookup_of_none ps [] rfl
  · intro k v' hsome
    obtain ⟨m', hins, _, _, _, _, hnoop, _⟩ := insert_spec hwf (k, v')
    rw [hnoop hsome] at hins
    exact hins

theorem insert_no_overwrite_witness :
    ∃ m : HM Nat Nat, insertList (init (fun n => n)) [(1, 10), (2, 20), (1, 99)] = some m ∧
      m.size_ = 2 ∧ refLookup (absMap m) 1 = some 10 ∧ insert m (1, 5) = some m := by
  obtain ⟨m, h1, h2, h3, h4⟩ :=
    insert_no_overwrite_spec (fun n => n) [(1, 10), (2, 20), (1, 99)]
  refine ⟨m, h1, ?_, ?_, ?_⟩
  · rw [h2]
    decide
  · rw [h3 1]
    rfl
  · apply h4
    rw [h3 1]
    rfl

/-- C2: running any sequence of public operations from the empty table
leaves the iteration order (the chain) equal to the reference model's
insertion-ordered list, in which a key sits at the position of its first
successful insert and erased keys are gone; erasing a present key and
re-inserting it moves it to the tail of the iteration order; and a resize
leaves the iteration-order contents unchanged. -/
theorem iteration_order_spec [DecidableEq K] [Inhabited V] (hasher : K → Nat)
    (ops : List (Op K V)) :
    (∃ m, run (init hasher) ops = some m ∧ absMap m = refRun [] ops) ∧
    (∀ m : HM K V, Wf m → ∀ k v, k ∈ m.chain.map Entry.key →
      ∃ m', run m [Op.ers k, Op.ins (k, v)] = some m' ∧
        absMap m' = refErase (absMap m) k ++ [(k, v)]) ∧
    (∀ (m : HM K V) (newCap : Nat), Wf m → m.chain.length < newCap → 0 < newCap →
      ∃ m', resize m newCap = some m' ∧ absMap m' = absMap m) := by
  refine ⟨?_, ?_, ?_⟩
  · obtain ⟨m, h1, _, _, h4⟩ := run_spec ops (init hasher) (wf_init hasher)
    exact ⟨m, h1, h4⟩
  · intro m hwf k v _
    obtain ⟨m1, h1, h2, h3, h4⟩ := step_spec hwf (Op.ers k)
    obtain ⟨m2, g1, g2, g3, g4⟩ := step_spec h2 (Op.ins (k, v))
    refine ⟨m2, ?_, ?_⟩
    · show (match step m (Op.ers k) with
        | none => none
        | some m1 => run m1 [Op.ins (k, v)]) = some m2
      rw [h1]
      show (match step m1 (Op.ins (k, v)) with
        | none => none
        | some m2 => run m2 []) = some m2
      rw [g1]
      rfl
    · rw [g4, h4]
      show refInsert (refErase (absMap m) k) (k, v) = _
      rw [refInsert_of_none (refErase_lookup (absMap m) k)]
  · intro m newCap hwf hlen hcap
    obtain ⟨m', h1, _, _, _, _, _, _, _, _, _, h11⟩ := resize_spec m newCap hcap hwf.hnodup hlen
    exact ⟨m', h1, h11⟩

theorem iteration_order_witness :
    (∃ m : HM Nat Nat,
      run (init (fun n => n))
        [Op.ins (1, 10), Op.ins (2, 20), Op.ins (3, 30), Op.ers 2, Op.ins (2, 99)] = some m ∧
      absMap m = [(1, 10), (3, 30), (2, 99)]) ∧
    (∃ m' : HM Nat Nat, resize (init (fun n => n)) 4 = some m' ∧ absMap m' = []) := by
  obtain ⟨⟨m, h1, h2⟩, hpart2, hpart3⟩ :=
    iteration_order_spec (fun n : Nat => n)
      [Op.ins (1, 10), Op.ins (2, 20), Op.ins (3, 30), Op.ers 2, Op.ins (2, 99)]
  constructor
  · refine ⟨m, h1, ?_⟩
    rw [h2]
    decide
  · obtain ⟨m', hres, habs⟩ := hpart3 (init (fun n => n)) 4 (wf_init _) (by decide) (by decide)
    refine ⟨m', hres, ?_⟩
    rw [habs]
    rfl

/-- C3 counterexample: on a table already containing key `0`, inserting
`(0, 1)` (a no-op) and then erasing `0` leaves `size()` one below its
value from before the insert, refuting the claim's unconditional
size-restoration: here the table `m₁` holds key `0` with `size() = 1`,
and after `insert (0, 1); erase 0` the size is `0`. -/
theorem erase_after_insert_cex :
    ∃ m1 m2 m3 : HM Nat Nat,
      insert (init (fun n => n)) (0, 5) = some m1 ∧
      insert m1 (0, 1) = some m2 ∧
      erase m2 0 = some m3 ∧
      find m3 0 = some none ∧
      m3.size_ ≠ m1.size_ := by
  refine ⟨⟨fun n => n, 2, 1, #[some 0, none], [⟨0, 5, 0⟩]⟩,
    ⟨fun n => n, 2, 1, #[some 0, none], [⟨0, 5, 0⟩]⟩,
    ⟨fun n => n, 2, 0, #[none, none], []⟩, rfl, rfl, rfl, rfl, by decide⟩

/-- C3 (amended): for every well-formed table, key `k` and value `v`,
`insert (k, v)` followed by `erase k` leaves `find k` equal to `end()`;
and when `k` was absent before the insert, `size()` is restored to its
value from before the insert. -/
theorem erase_after_insert_spec [DecidableEq K] {m : HM K V} (hwf : Wf m) (k : K) (v : V) :
    ∃ m1 m2, insert m (k, v) = some m1 ∧ erase m1 k = some m2 ∧
      find m2 k = some none ∧
      (refLookup (absMap m) k = none → m2.size_ = m.size_) := by
  obtain ⟨m1, hins, hwf1, _, habs1, _, _, hsz1⟩ := insert_spec hwf (k, v)
  obtain ⟨m2, hers, hwf2, _, _, habs2, hsz2, _⟩ := erase_spec hwf1 k
  have habsent2 : k ∉ m2.chain.map Entry.key := by
    rw [← refLookup_absMap_isSome_iff, habs2, refErase_lookup]
    simp
  refine ⟨m1, m2, hins, hers, (find_spec hwf2 k).2 habsent2, ?_⟩
  intro hnone
  have hin1 : (refLookup (absMap m1) k).isSome := by
    rw [habs1, refInsert_of_none hnone, refLookup_append, hnone, refLookup_cons]
    simp
  have h1 := hsz1 hnone
  have h2 := hsz2 hin1
  omega

theorem erase_after_insert_witness :
    ∃ m1 m2 : HM Nat Nat, insert (init (fun n => n)) (0, 5) = some m1 ∧
      erase m1 0 = some m2 ∧ find m2 0 = some none ∧ m2.size_ = 0 := by
  obtain ⟨m1, m2, h1, h2, h3, h4⟩ :=
    erase_after_insert_spec (@wf_init Nat Nat (fun n => n)) 0 5
  exact ⟨m1, m2, h1, h2, h3, h4 rfl⟩

/-- C4: after every sequence of public operations from the empty table,
the capacity is a power of two obtained by repeated doubling of 1 and
`size() * 4 < capacity * 3` holds (in particular immediately after any
resize, which only happens inside those operations); and the growth
trigger fires exactly when `count * 4 >= capacity * 3`, in which case the
capacity doubles. -/
theorem growth_policy_spec [DecidableEq K] [Inhabited V] (hasher : K → Nat)
    (ops : List (Op K V)) :
    (∃ m, run (init hasher) ops = some m ∧ (∃ n, m.capacity = 2 ^ n) ∧
      m.size_ * 4 < m.capacity * 3) ∧
    (∀ m' : HM K V, m'.size_ * 4 ≥ m'.capacity * 3 →
      resize_if_need m' = resize m' (m'.capacity * 2)) ∧
    (∀ m' : HM K V, m'.size_ * 4 < m'.capacity * 3 → resize_if_need m' = some m') := by
  refine ⟨?_, ?_, ?_⟩
  · obtain ⟨m, h1, h2, _, _⟩ := run_spec ops (init hasher) (wf_init hasher)
    exact ⟨m, h1, h2.hpow, h2.hload⟩
  · intro m' h
    unfold resize_if_need
    rw [if_pos h]
  · intro m' h
    unfold resize_if_need
    rw [if_neg (by omega)]

theorem growth_policy_witness :
    (∃ m : HM Nat Nat,
      run (init (fun n => n)) [Op.ins (1, 1), Op.ins (2, 2), Op.ins (3, 3)] = some m ∧
      (∃ n, m.capacity = 2 ^ n) ∧ m.size_ * 4 < m.capacity * 3) ∧
    resize_if_need (⟨fun n => n, 1, 1, #[some 0], [⟨0, 0, 0⟩]⟩ : HM Nat Nat) =
      resize (⟨fun n => n, 1, 1, #[some 0], [⟨0, 0, 0⟩]⟩ : HM Nat Nat) 2 ∧
    resize_if_need (init (fun n => n) : HM Nat Nat) = some (init (fun n => n)) := by
  obtain ⟨h1, h2, h3⟩ :=
    growth_policy_spec (fun n : Nat => n) [Op.ins (1, 1), Op.ins (2, 2), Op.ins (3, 3)]
  exact ⟨h1, h2 _ (by decide), h3 _ (by decide)⟩

/-- C5: after every sequence of public operations from the empty table,
the open-addressing contiguity-of-probe invariant holds: for every
occupied slot `i`, every slot on the cyclic scan from the home position
`hash(key) mod capacity` of its key up to `i` is occupied. -/
theorem probe_contiguity_spec [DecidableEq K] [Inhabited V] (hasher : K → Nat)
    (ops : List (Op K V)) :
    ∃ m, run (init hasher) ops = some m ∧ Contig m.hasher m.capacity m.storage := by
  obtain ⟨m, h1, h2, _, _⟩ := run_spec ops (init hasher) (wf_init hasher)
  exact ⟨m, h1, h2.hcontig⟩

theorem probe_contiguity_witness :
    ∃ m : HM Nat Nat,
      run (init (fun n => n)) [Op.ins (0, 1), Op.ins (4, 2), Op.ers 0] = some m ∧
      Contig m.hasher m.capacity m.storage := by
  obtain ⟨m, h1, h2⟩ :=
    probe_contiguity_spec (fun n : Nat => n) [Op.ins (0, 1), Op.ins (4, 2), Op.ers 0]
  exact ⟨m, h1, h2⟩

/-- C6: when the table is not full, `find_next pos` returns the first
index `i` of the cyclic scan from `pos + 1` that is either empty or
occupied by an entry whose home position does not lie in the cyclic range
`[pos + 1, i]` (every earlier scanned slot being occupied with its home in
range); and `is_in_range` decides cyclic-range membership, wraparound
included, agreeing with the cyclic distance ordering. -/
theorem find_next_characterization (hasher : K → Nat) (cap : Nat) (st : Array (Option K))
    (pos : Nat) (hcap : 0 < cap) (hpos : pos < cap)
    (hemp : ∃ i, i < cap ∧ slotAt st i = none) :
    (∃ q, find_next hasher cap st pos = some q ∧ q < cap ∧
      (slotAt st q = none ∨ ∃ k', slotAt st q = some k' ∧
        is_in_range (homeOf hasher cap k') (cyclic_inc cap pos) q = false) ∧
      (∀ x, x < cap → dist cap (cyclic_inc cap pos) x < dist cap (cyclic_inc cap pos) q →
        ∃ k', slotAt st x = some k' ∧
          is_in_range (homeOf hasher cap k') (cyclic_inc cap pos) x = true)) ∧
    (∀ a b i, a < cap → b < cap → i < cap →
      (is_in_range i a b = true ↔ dist cap a i ≤ dist cap a b)) :=
  ⟨find_next_spec hcap hpos hemp, fun a b i ha hb hi => is_in_range_iff hi ha hb⟩

theorem find_next_characterization_witness :
    (∃ q, find_next (fun n => n) 4 #[some 0, some 4, none, none] 0 = some q ∧ q < 4) ∧
    (is_in_range 0 3 1 = true ↔ dist 4 3 0 ≤ dist 4 3 1) := by
  obtain ⟨⟨q, h1, h2, _, _⟩, hiff⟩ :=
    find_next_characterization (fun n => n) 4 #[some 0, some 4, none, none] 0
      (by decide) (by decide) ⟨2, by decide, rfl⟩
  exact ⟨⟨q, h1, h2⟩, hiff 3 1 0 (by decide) (by decide) (by decide)⟩

/-- C7: `at` raises `KeyNotFound` exactly on absent keys and returns the
stored value on present keys; `operator[]` on an absent key raises
nothing, inserts a default-constructed value, increases `size()` by one
and returns that default value, while on a present key it leaves the
table unchanged and returns the stored value. -/
theorem at_index_spec [DecidableEq K] [Inhabited V] {m : HM K V} (hwf : Wf m) (k : K) :
    (refLookup (absMap m) k = none → hm_at m k = some (Except.error ())) ∧
    (∀ v, refLookup (absMap m) k = some v → hm_at m k = some (Except.ok v)) ∧
    (refLookup (absMap m) k = none → ∃ m', opIndex m k = some (m', (default : V)) ∧
      m'.size_ = m.size_ + 1 ∧ absMap m' = absMap m ++ [(k, default)] ∧ Wf m') ∧
    (∀ v, refLookup (absMap m) k = some v → opIndex m k = some (m, v)) := by
  obtain ⟨hok, herr⟩ := at_spec hwf k
  obtain ⟨m', v', h1, h2, h3, h4, h5, h6⟩ := opIndex_spec hwf k
  refine ⟨herr, hok, ?_, ?_⟩
  · intro hn
    obtain ⟨hs, hv, habs⟩ := h6 hn
    refine ⟨m', ?_, hs, habs, h2⟩
    rw [← hv]
    exact h1
  · intro v hv
    obtain ⟨hm, hvv⟩ := h5 v hv
    rw [hm, hvv] at h1
    exact h1

theorem at_index_witness :
    hm_at (init (fun n => n) : HM Nat Nat) 0 = some (Except.error ()) ∧
    ∃ m', opIndex (init (fun n => n) : HM Nat Nat) 0 = some (m', 0) ∧ m'.size_ = 1 := by
  obtain ⟨herr, _, habs, _⟩ := at_index_spec (@wf_init Nat Nat (fun n => n)) 0
  refine ⟨herr rfl, ?_⟩
  obtain ⟨m', h1, h2, _, _⟩ := habs rfl
  refine ⟨m', h1, ?_⟩
  rw [h2]
  rfl

/-- C8: in every table state reachable by public operations the element
count is strictly below the capacity, so at least one slot is empty and
the probing primitive `find_pos` terminates (returns a position) for
every key. -/
theorem table_never_full [DecidableEq K] [Inhabited V] (hasher : K → Nat) (m : HM K V)
    (hreach : Reachable hasher m) :
    m.size_ < m.capacity ∧ ∀ k, (find_pos m k).isSome := by
  obtain ⟨ops, hops⟩ := hreach
  obtain ⟨m', h1, h2, _, _⟩ := run_spec ops (init hasher) (wf_init hasher)
  rw [hops] at h1
  cases h1
  refine ⟨load_lt h2.hload h2.hcap, ?_⟩
  intro k
  have hspec : ∃ p, find_pos m k = some p ∧ p < m.capacity ∧
      (slotAt m.storage p = none ∨ slotAt m.storage p = some k) ∧
      ∀ x, x < m.capacity →
        dist m.capacity (homeOf m.hasher m.capacity k) x <
          dist m.capacity (homeOf m.hasher m.capacity k) p →
        ∃ k', slotAt m.storage x = some k' ∧ k' ≠ k :=
    find_pos_st_spec k h2.hcap (wf_empty_slot h2)
  obtain ⟨p, hp, _, _, _⟩ := hspec
  rw [hp]
  rfl

theorem table_never_full_witness :
    (init (fun n => n) : HM Nat Nat).size_ < (init (fun n => n) : HM Nat Nat).capacity ∧
    (find_pos (init (fun n => n) : HM Nat Nat) 5).isSome := by
  obtain ⟨h1, h2⟩ := table_never_full (fun n => n) (init (fun n => n) : HM Nat Nat) ⟨[], rfl⟩
  exact ⟨h1, h2 5⟩

/-- C9: copy assignment to a different object empties the destination and
inserts every entry of the source in source iteration order, so the
destination ends with exactly the source's contents in the source's
iteration order (the destination keeps its own hasher, which the
assignment operator does not copy); self-assignment is a no-op. -/
theorem assign_copy_spec [DecidableEq K] (dst : HM K V) {src : HM K V} (hwf : Wf src) :
    assign dst src true = some dst ∧
    ∃ d, assign dst src false = some d ∧ Wf d ∧ absMap d = absMap src ∧
      d.hasher = dst.hasher := by
  refine ⟨rfl, ?_⟩
  obtain ⟨d, h1, h2, h3, h4⟩ :=
    insertList_spec (src.chain.map fun e => (e.key, e.value)) (delete_all dst)
      (wf_delete_all dst)
  refine ⟨d, h1, h2, ?_, ?_⟩
  · rw [h4]
    show refInsertList [] (src.chain.map fun e => (e.key, e.value)) = absMap src
    have hkeys : ((src.chain.map fun e => (e.key, e.value)).map Prod.fst).Nodup := by
      have heq : ((src.chain.map fun e => (e.key, e.value)).map Prod.fst) =
          src.chain.map Entry.key := absMap_keys src
      rw [heq]
      exact hwf.hnodup
    rw [refInsertList_of_nodup _ [] hkeys (by intro p hp; simp)]
    rfl
  · rw [h3]
    rfl

theorem assign_copy_witness :
    assign (init (fun n => n) : HM Nat Nat) (init (fun n => n)) true =
      some (init (fun n => n)) ∧
    ∃ d : HM Nat Nat, assign (init (fun n => n)) (init (fun n => n)) false = some d ∧
      absMap d = absMap (init (fun n => n) : HM Nat Nat) := by
  obtain ⟨h1, d, h2, _, h4, _⟩ :=
    assign_copy_spec (init (fun n => n) : HM Nat Nat) (@wf_init Nat Nat (fun n => n))
  exact ⟨h1, d, h2, h4⟩

/-- C10: the copy constructor does not copy the source's hash function:
the copy's `hash_function()` is the separately supplied (default) hasher,
so whenever the source's hasher differs from the default at some key the
copy's hasher differs from the source's there, while the contents are
copied in source iteration order. -/
theorem copy_ctor_hasher_spec [DecidableEq K] (src : HM K V) (dflt : K → Nat) :
    ∃ c, copyCtor src dflt = some c ∧ hash_function c = dflt ∧
      (Wf src → absMap c = absMap src) ∧
      (∀ k, hash_function src k ≠ dflt k → hash_function c k ≠ hash_function src k) := by
  obtain ⟨c, h1, h2, h3, h4⟩ :=
    insertList_spec (src.chain.map fun e => (e.key, e.value)) (init dflt) (wf_init dflt)
  refine ⟨c, h1, ?_, ?_, ?_⟩
  · show c.hasher = dflt
    rw [h3]
    rfl
  · intro hwf
    rw [h4]
    show refInsertList [] (src.chain.map fun e => (e.key, e.value)) = absMap src
    have hkeys : ((src.chain.map fun e => (e.key, e.value)).map Prod.fst).Nodup := by
      have heq : ((src.chain.map fun e => (e.key, e.value)).map Prod.fst) =
          src.chain.map Entry.key := absMap_keys src
      rw [heq]
      exact hwf.hnodup
    rw [refInsertList_of_nodup _ [] hkeys (by intro p hp; simp)]
    rfl
  · intro k hk
    show c.hasher k ≠ src.hasher k
    rw [h3]
    exact fun hc => hk (hc.symm)

theorem copy_ctor_hasher_witness :
    ∃ c : HM Nat Nat, copyCtor (init (fun n => n + 1) : HM Nat Nat) (fun _ => 0) = some c ∧
      hash_function c 0 = 0 ∧
      hash_function (init (fun n => n + 1) : HM Nat Nat) 0 = 1 ∧
      hash_function c 0 ≠ hash_function (init (fun n => n + 1) : HM Nat Nat) 0 := by
  obtain ⟨c, h1, h2, _, h4⟩ :=
    copy_ctor_hasher_spec (init (fun n => n + 1) : HM Nat Nat) (fun _ => 0)
  refine ⟨c, h1, by rw [h2], rfl, ?_⟩
  exact h4 0 (by decide)

end HashMapVerif
